import Mathlib

/-!
Verification of the Route Construction & Assignment Engine
(`server/python_services/services/route_optimization.py`).

The Python service is embedded shallowly:

* float arithmetic is modelled exactly (`ℚ` for data that is compared and
  computed with, `ℝ` for the haversine distance, which uses transcendental
  functions);
* the geographic distance function is threaded through the algorithms as an
  explicit parameter `d` into a linearly ordered field `β`, exactly as the
  source threads `self.calculate_distance`; instantiating `β := ℝ` and
  `d := calculate_distance` recovers the source's concrete behaviour, while
  theorems are proved for every `d`;
* the process-global `random` module is modelled as an explicit `Tape` of
  integer and float draws threaded through every stochastic operation, in
  the exact order the source consumes randomness.  `random.sample` and
  `random.shuffle` are modelled as tape-driven draw-without-replacement
  loops: for every tape content they produce valid samples/permutations,
  matching the guarantees of the library routines;
* Python exceptions are modelled with `Except`: each operation returns its
  value (or error) together with the advanced tape.
-/

open List

namespace RouteOpt

/-- Errors surfaced by the engine (Python exceptions, by their cause). -/
inductive Err : Type where
  /-- `ValueError` for missing delivery points / orders / partners. -/
  | invalidInput : Err
  /-- `ValueError` raised by `random.sample` when the sample size exceeds the
  population size. -/
  | sampleError : Err
  /-- `IndexError` raised by the order-crossover fill loop when it runs out
  of remaining elements. -/
  | indexError : Err
  /-- `ValueError` raised by `max()` on an empty population. -/
  | emptyPopulation : Err
  /-- `ValueError("All optimization algorithms failed")` from hybrid. -/
  | allFailed : Err
  /-- `TypeError` raised by `len(None)` when a null route is evaluated. -/
  | typeError : Err
deriving DecidableEq, Repr

/-- Model of the state of the process-global `random` module: a stream of
integer draws and a stream of float draws (`random.random()` results),
together with the positions of the next unread element of each stream. -/
structure Tape : Type where
  ints : Nat → Nat
  floats : Nat → ℚ
  ipos : Nat
  fpos : Nat

/-- Read one integer draw from the global random state. -/
def Tape.nextInt (t : Tape) : Nat × Tape :=
  (t.ints t.ipos, { t with ipos := t.ipos + 1 })

/-- Read one `random.random()` float draw from the global random state. -/
def Tape.nextFloat (t : Tape) : ℚ × Tape :=
  (t.floats t.fpos, { t with fpos := t.fpos + 1 })

/-- Build a tape from finite lists of draws (0 resp. 0 after exhaustion). -/
def Tape.ofLists (is : List Nat) (fs : List ℚ) : Tape :=
  { ints := fun i => is.getD i 0, floats := fun i => fs.getD i 0,
    ipos := 0, fpos := 0 }

instance {eps alpha : Type} [DecidableEq eps] [DecidableEq alpha] :
    DecidableEq (Except eps alpha) := fun a b =>
  match a, b with
  | .error e1, .error e2 =>
    if h : e1 = e2 then .isTrue (by rw [h])
    else .isFalse (by intro hc; cases hc; exact h rfl)
  | .ok v1, .ok v2 =>
    if h : v1 = v2 then .isTrue (by rw [h])
    else .isFalse (by intro hc; cases hc; exact h rfl)
  | .error _, .ok _ => .isFalse (by intro hc; cases hc)
  | .ok _, .error _ => .isFalse (by intro hc; cases hc)

/-- Python's `max(xs, key = f)` on `x :: xs`: the first element whose key is
maximal (later elements replace the current best only when strictly
greater). -/
def argmaxKey {α β : Type} [LinearOrder β] (f : α → β) (x : α) (xs : List α) : α :=
  xs.foldl (fun b y => if f b < f y then y else b) x

/-- Python's `min(xs, key = f)` on `x :: xs`: the first element whose key is
minimal. -/
def argminKey {α β : Type} [LinearOrder β] (f : α → β) (x : α) (xs : List α) : α :=
  xs.foldl (fun b y => if f y < f b then y else b) x

/-- Collect a list of optional values; `none` if any entry is `none`. -/
def liftSome {α : Type} : List (Option α) → Option (List α)
  | [] => some []
  | none :: _ => none
  | some x :: rest => (liftSome rest).map (x :: ·)

/-- Draw-without-replacement loop behind `random.sample(range(n), k)`: each
step consumes one integer draw and removes the drawn element from the pool.
For every tape the drawn elements are distinct members of the pool. -/
def drawLoop (pool : List Nat) : Nat → Tape → List Nat × Tape
  | 0, t => ([], t)
  | k + 1, t =>
    let (r, t1) := t.nextInt
    let c := pool.getD (r % pool.length) 0
    let (rest, t2) := drawLoop (pool.erase c) k t1
    (c :: rest, t2)

/-- `random.sample(range(n), k)`: raises `ValueError` when `k > n`
(before consuming any randomness), otherwise draws `k` distinct members of
`range n`. -/
def sample_range (n k : Nat) (t : Tape) : Except Err (List Nat) × Tape :=
  if k ≤ n then
    let (l, t1) := drawLoop (List.range n) k t
    (.ok l, t1)
  else (.error .sampleError, t)

/-- Draw-without-replacement loop behind `random.shuffle`: consumes one
integer draw per element.  For every tape the result is a permutation of the
pool. -/
def shuffleDraw {P : Type} [DecidableEq P] (pool : List P) : Nat → Tape → List P × Tape
  | 0, t => ([], t)
  | fuel + 1, t =>
    match pool with
    | [] => ([], t)
    | x :: xs =>
      let (r, t1) := t.nextInt
      let c := (x :: xs).getD (r % (x :: xs).length) x
      let (rest, t2) := shuffleDraw ((x :: xs).erase c) fuel t1
      (c :: rest, t2)

/-- `random.shuffle` of a list (the source shuffles a fresh copy). -/
def shuffleList {P : Type} [DecidableEq P] (l : List P) (t : Tape) : List P × Tape :=
  shuffleDraw l l.length t

/-- Caller-supplied constraints, with the defaults the source passes to
`constraints.get(key, default)`.  The source reads exactly these keys. -/
structure Constraints : Type where
  algorithm : Option String := none
  population_size : Nat := 100
  generations : Nat := 50
  mutation_rate : ℚ := 1/10
  crossover_rate : ℚ := 4/5
  ant_count : Nat := 50
  iterations : Nat := 100
  evaporation_rate : ℚ := 1/10
  alpha : ℚ := 1
  beta : ℚ := 2
  base_speed : ℚ := 30
  stop_time : ℚ := 5
  max_efficiency : ℚ := 50

/-- Default constraints (`constraints = {}` on the Python side). -/
def defaultConstraints : Constraints := {}

section Engine

variable {P : Type} [DecidableEq P] {β : Type} [LinearOrderedField β]

/-- `calculate_total_distance`: sum of `d` over consecutive pairs, `0` for
routes of length below 2. -/
def calculate_total_distance (d : P → P → β) : List P → β
  | [] => 0
  | [_] => 0
  | a :: b :: rest => d a b + calculate_total_distance d (b :: rest)

/-- `calculate_fitness`: `1 / (1 + total_distance)`.  The source also takes
`partner_locations` but never reads it. -/
def calculate_fitness (d : P → P → β) (route : List P) : β :=
  1 / (1 + calculate_total_distance d route)

/-- `estimate_delivery_time`: travel time at `base_speed` plus a fixed stop
time per point. -/
def estimate_delivery_time (d : P → P → β) (c : Constraints) (route : List P) : β :=
  calculate_total_distance d route / (c.base_speed : β) * 60
    + (route.length : β) * (c.stop_time : β)

/-- `calculate_efficiency_score`.  Lean's field division is total
(`x / 0 = 0`), so the `ZeroDivisionError` the source would raise on a zero
estimated time is not modelled; no claim touches that case. -/
def calculate_efficiency_score (d : P → P → β) (c : Constraints) (route : List P) : β :=
  min 1 (calculate_total_distance d route
    / (estimate_delivery_time d c route / 60) / (c.max_efficiency : β))

/-- Greedy nearest-neighbour loop (`while unvisited` in
`greedy_optimization`): repeatedly move to the first nearest unvisited point
and delete it (`list.remove` deletes the first occurrence).  The fuel is the
length of the unvisited list at the call site. -/
def greedyGo (d : P → P → β) : Nat → P → List P → List P
  | 0, cur, _ => [cur]
  | _ + 1, cur, [] => [cur]
  | fuel + 1, cur, x :: xs =>
    let nearest := argminKey (fun p => d cur p) x xs
    cur :: greedyGo d fuel nearest ((x :: xs).erase nearest)

/-- `greedy_optimization`: start at `delivery_points[0]`
(an `IndexError` on an empty input).  Deterministic, no tape. -/
def greedy_optimization (d : P → P → β) (pts : List P) : Except Err (Option (List P)) :=
  match pts with
  | [] => .error .invalidInput
  | x :: xs => .ok (some (greedyGo d xs.length x xs))

/-- Order-crossover fill (the `child[start:end] = parent1[start:end]` copy
plus the fill loop of `crossover`): positions `[start, e)` take parent 1's
segment, the remaining positions are filled in order from the elements of
parent 2 that do not occur in the segment.  The fill loop raises
`IndexError` exactly when it runs out of remaining elements. -/
def oxFill (p1 p2 : List P) (start e : Nat) : Except Err (List P) :=
  let seg := (p1.drop start).take (e - start)
  let rem := p2.filter (fun x => decide (x ∉ seg))
  if rem.length < p1.length - seg.length then .error .indexError
  else .ok (rem.take start ++ seg ++ (rem.drop start).take (p1.length - e))

/-- `crossover`: with probability `1 - crossover_rate` the pair passes
through unchanged; otherwise two distinct cut indices are sampled from
`range(len(parent1))` and order crossover is applied in both directions. -/
def crossover (cr : ℚ) (p1 p2 : List P) (t : Tape) :
    Except Err (List P × List P) × Tape :=
  let (f, t1) := t.nextFloat
  if cr < f then (.ok (p1, p2), t1)
  else
    match sample_range p1.length 2 t1 with
    | (.error e, t2) => (.error e, t2)
    | (.ok idxs, t2) =>
      let a := idxs.getD 0 0
      let b := idxs.getD 1 0
      match oxFill p1 p2 (min a b) (max a b), oxFill p2 p1 (min a b) (max a b) with
      | .ok c1, .ok c2 => (.ok (c1, c2), t2)
      | .error e, _ => (.error e, t2)
      | _, .error e => (.error e, t2)

/-- In-place swap `route[i], route[j] = route[j], route[i]`. -/
def swapIdx (r : List P) (i j : Nat) : List P :=
  match r[i]?, r[j]? with
  | some vi, some vj => (r.set i vj).set j vi
  | _, _ => r

/-- `mutate`: with probability `mutation_rate` swap two distinct positions
sampled from `range(len(route))`.  The source swaps in place; since the
pass-through branch of `crossover` returns its arguments unchanged, an
in-place swap can also reach aliased individuals — every aliased list is
swapped identically, so the value semantics used here produces the same
route multiset facts; on tapes where no mutation fires the two semantics
coincide exactly. -/
def mutate (mr : ℚ) (r : List P) (t : Tape) :
    Except Err (List P) × Tape :=
  let (f, t1) := t.nextFloat
  if f < mr then
    match sample_range r.length 2 t1 with
    | (.error e, t2) => (.error e, t2)
    | (.ok idxs, t2) => (.ok (swapIdx r (idxs.getD 0 0) (idxs.getD 1 0)), t2)
  else (.ok r, t1)

/-- `initialize_population` (source name): `population_size` tape-driven
shuffles of a fresh copy of the delivery points. -/
def init_population (pts : List P) : Nat → Tape → List (List P) × Tape
  | 0, t => ([], t)
  | k + 1, t =>
    let (r, t1) := shuffleList pts t
    let (rest, t2) := init_population pts k t1
    (r :: rest, t2)

/-- One tournament: `random.sample(range(len(population)), 3)`, then the
index of the first maximal fitness among the drawn indices
(`tournament_indices[tournament_fitness.index(max(tournament_fitness))]`). -/
def pickWinner (fits : List β) (idxs : List Nat) : Nat :=
  match idxs with
  | [] => 0
  | i :: is => argmaxKey (fun j => fits.getD j 0) i is

/-- `tournament_selection`: one tournament per population slot, in slot
order. -/
def tournament_selection (fits : List β) (pop : List (List P)) :
    Nat → Tape → Except Err (List (List P)) × Tape
  | 0, t => (.ok [], t)
  | k + 1, t =>
    match sample_range pop.length 3 t with
    | (.error e, t1) => (.error e, t1)
    | (.ok idxs, t1) =>
      match tournament_selection fits pop k t1 with
      | (.error e, t2) => (.error e, t2)
      | (.ok rest, t2) => (.ok (pop.getD (pickWinner fits idxs) [] :: rest), t2)

/-- The crossover-and-mutation loop `for i in range(0, population_size, 2)`
of `genetic_algorithm_optimization`, consuming the mating pool two parents
at a time (its length always equals `population_size`); a trailing single
parent passes through unchanged. -/
def pairLoop (cr mr : ℚ) : List (List P) → Tape →
    Except Err (List (List P)) × Tape
  | [], t => (.ok [], t)
  | [x], t => (.ok [x], t)
  | x :: y :: rest, t =>
    match crossover cr x y t with
    | (.error e, t1) => (.error e, t1)
    | (.ok (c1, c2), t1) =>
      match mutate mr c1 t1 with
      | (.error e, t2) => (.error e, t2)
      | (.ok m1, t2) =>
        match mutate mr c2 t2 with
        | (.error e, t3) => (.error e, t3)
        | (.ok m2, t3) =>
          match pairLoop cr mr rest t3 with
          | (.error e, t4) => (.error e, t4)
          | (.ok tail, t4) => (.ok (m1 :: m2 :: tail), t4)

/-- One generation of the evolution loop: fitness scores, tournament
selection, then crossover and mutation. -/
def evolveStep (d : P → P → β) (cr mr : ℚ) (pop : List (List P)) (t : Tape) :
    Except Err (List (List P)) × Tape :=
  let fits := pop.map (calculate_fitness d)
  match tournament_selection fits pop pop.length t with
  | (.error e, t1) => (.error e, t1)
  | (.ok selected, t1) => pairLoop cr mr selected t1

/-- `for generation in range(generations)`: the evolution loop runs exactly
`generations` steps. -/
def evolveN (d : P → P → β) (cr mr : ℚ) : Nat → List (List P) → Tape →
    Except Err (List (List P)) × Tape
  | 0, pop, t => (.ok pop, t)
  | g + 1, pop, t =>
    match evolveStep d cr mr pop t with
    | (.error e, t1) => (.error e, t1)
    | (.ok pop1, t1) => evolveN d cr mr g pop1 t1

/-- `genetic_algorithm_optimization`: initialise the population, evolve for
exactly `generations` generations, then return
`max(population, key = fitness)` of the final population. -/
def genetic_algorithm_optimization (d : P → P → β) (pts : List P)
    (c : Constraints) (t : Tape) : Except Err (Option (List P)) × Tape :=
  let pop0 := (init_population pts c.population_size t).1
  let t1 := (init_population pts c.population_size t).2
  match evolveN d c.crossover_rate c.mutation_rate c.generations pop0 t1 with
  | (.error e, t2) => (.error e, t2)
  | (.ok popF, t2) =>
    match popF with
    | [] => (.error .emptyPopulation, t2)
    | x :: xs => (.ok (some (argmaxKey (calculate_fitness d) x xs)), t2)

/-- Best-route update of the ant-colony loop: `best_distance` starts at
`float('inf')`, so the first candidate always wins. -/
def antBest (d : P → P → β) (best : Option (List P)) (r : List P) : Option (List P) :=
  match best with
  | none => some r
  | some b => if calculate_total_distance d r < calculate_total_distance d b
      then some r else some b

/-- One ant-colony iteration: `ant_count` ants each build a route.
`generate_ant_route` is the source's placeholder returning the delivery
points unchanged, and `update_pheromones` returns the matrix unchanged, so
an iteration folds the best-route update over `ant_count` copies of the
input. -/
def antIteration (d : P → P → β) (pts : List P) (ac : Nat)
    (best : Option (List P)) : Option (List P) :=
  (List.replicate ac pts).foldl (antBest d) best

/-- The `for iteration in range(iterations)` loop of the ant colony. -/
def antLoop (d : P → P → β) (pts : List P) (ac : Nat) :
    Nat → Option (List P) → Option (List P)
  | 0, best => best
  | k + 1, best => antLoop d pts ac k (antIteration d pts ac best)

/-- `ant_colony_optimization`: consumes no randomness (every stochastic part
is a placeholder) and returns `best_route`, which stays `None` when either
loop is empty. -/
def ant_colony_optimization (d : P → P → β) (pts : List P) (c : Constraints)
    (t : Tape) : Except Err (Option (List P)) × Tape :=
  (.ok (antLoop d pts c.ant_count c.iterations none), t)

/-- `hybrid_optimization`: run genetic, ant colony and greedy in that order,
catching each strategy's exception; raise
`ValueError("All optimization algorithms failed")` when no strategy
succeeded, otherwise return `max(results, key = fitness)` — which evaluates
`len(None)` (a `TypeError`, not caught) if any successful strategy returned
a null route. -/
def hybrid_optimization (d : P → P → β) (pts : List P) (c : Constraints)
    (t : Tape) : Except Err (Option (List P)) × Tape :=
  let rg := (genetic_algorithm_optimization d pts c t).1
  let t1 := (genetic_algorithm_optimization d pts c t).2
  let ra := (ant_colony_optimization d pts c t1).1
  let t2 := (ant_colony_optimization d pts c t1).2
  let rgr := greedy_optimization d pts
  let successes : List (Option (List P)) :=
    [rg, ra, rgr].filterMap Except.toOption
  match successes with
  | [] => (.error .allFailed, t2)
  | o :: os =>
    match liftSome (o :: os) with
    | none => (.error .typeError, t2)
    | some [] => (.error .typeError, t2)
    | some (q :: qs) => (.ok (some (argmaxKey (calculate_fitness d) q qs)), t2)

/-- The keys of `self.algorithms`. -/
def supportedAlgorithms : List String :=
  ["genetic", "ant_colony", "greedy", "neural_network", "hybrid"]

/-- `constraints.get("algorithm", "hybrid")` followed by the fallback
`if algorithm not in self.algorithms: algorithm = "hybrid"`. -/
def resolveAlgorithm (requested : Option String) : String :=
  let a := requested.getD "hybrid"
  if a ∈ supportedAlgorithms then a else "hybrid"

/-- Dispatch through `self.algorithms[algorithm]`.  `neural_network` is the
source's fallback-to-greedy placeholder. -/
def runAlgorithm (d : P → P → β) (name : String) (pts : List P)
    (c : Constraints) (t : Tape) : Except Err (Option (List P)) × Tape :=
  if name = "genetic" then genetic_algorithm_optimization d pts c t
  else if name = "ant_colony" then ant_colony_optimization d pts c t
  else if name = "greedy" then (greedy_optimization d pts, t)
  else if name = "neural_network" then (greedy_optimization d pts, t)
  else hybrid_optimization d pts c t

/-- Response of `optimize_delivery_route` (the fields the engine computes;
`confidence` and the timestamp are constants). -/
structure OptimizeResponse (P β : Type) : Type where
  optimized_route : List P
  total_distance : β
  estimated_time : β
  efficiency_score : β
  algorithm_used : String
deriving DecidableEq

/-- Metrics-and-response stage of `optimize_delivery_route` applied to a
resolved algorithm name.  A null route makes `calculate_total_distance`
call `len(None)` — a `TypeError` the source re-raises. -/
def buildRouteResponse (d : P → P → β) (alg : String) (pts : List P)
    (c : Constraints) (t : Tape) : Except Err (OptimizeResponse P β) × Tape :=
  match runAlgorithm d alg pts c t with
  | (.error e, t1) => (.error e, t1)
  | (.ok none, t1) => (.error .typeError, t1)
  | (.ok (some route), t1) =>
    (.ok { optimized_route := route,
           total_distance := calculate_total_distance d route,
           estimated_time := estimate_delivery_time d c route,
           efficiency_score := calculate_efficiency_score d c route,
           algorithm_used := alg }, t1)

/-- `optimize_delivery_route`: reject empty inputs, resolve the algorithm
name (silently falling back to `"hybrid"`), run it and report the metrics
with `algorithm_used` set to the resolved name. -/
def optimize_delivery_route (d : P → P → β) (pts : List P) (c : Constraints)
    (t : Tape) : Except Err (OptimizeResponse P β) × Tape :=
  if pts = [] then (.error .invalidInput, t)
  else buildRouteResponse d (resolveAlgorithm c.algorithm) pts c t

end Engine

section Assignment

variable {G : Type} [DecidableEq G] {β : Type} [LinearOrderedField β]

/-- An order as read by `assign_orders_to_partners`: an id and a location. -/
structure Order (G : Type) : Type where
  id : Nat
  location : G
deriving DecidableEq

/-- A delivery partner: id, location, optional `efficiency_score`
(default `0.5` via `partner.get("efficiency_score", 0.5)`). -/
structure Partner (G : Type) : Type where
  id : Nat
  location : G
  efficiency_score : Option ℚ
deriving DecidableEq

instance [Inhabited G] : Inhabited (Order G) := ⟨⟨0, default⟩⟩

instance [Inhabited G] : Inhabited (Partner G) := ⟨⟨0, default, none⟩⟩

/-- `create_assignment_matrix`:
`matrix[i][j] = distance * (1 + (1 - efficiency_score))`. -/
def create_assignment_matrix (d : G → G → β) (orders : List (Order G))
    (partners : List (Partner G)) : List (List β) :=
  orders.map fun o => partners.map fun p =>
    d o.location p.location * (1 + (1 - ((p.efficiency_score.getD (1/2) : ℚ) : β)))

/-- All ordered selections of `k` distinct elements from a pool (used to
enumerate the assignments a minimum-cost solver ranges over). -/
def picks (pool : List Nat) : Nat → List (List Nat)
  | 0 => [[]]
  | k + 1 => pool.flatMap fun c => (picks (pool.erase c) k).map (c :: ·)

/-- Total cost of a list of (row, column) assignment pairs in a matrix. -/
def pairsCost (M : List (List β)) (ps : List (Nat × Nat)) : β :=
  (ps.map fun p => (M.getD p.1 []).getD p.2 0).sum

/-- Column-indexed transpose of a cost matrix. -/
def transposeM (M : List (List β)) (m : Nat) : List (List β) :=
  (List.range m).map fun j => M.map fun row => row.getD j 0

/-- `hungarian_assignment`, i.e. `scipy.optimize.linear_sum_assignment`,
modelled by its documented contract: a minimum-cost assignment saturating
the smaller dimension of the matrix, here realised as the first optimum of
an explicit enumeration.  Rows are assigned distinct columns when
`rows ≤ cols`, otherwise columns are assigned distinct rows. -/
def hungarian_assignment (M : List (List β)) : List (Nat × Nat) :=
  let n := M.length
  let m := (M.headD []).length
  if n ≤ m then
    match picks (List.range m) n with
    | [] => []
    | c :: cs =>
      let best := argminKey (fun cols => pairsCost M ((List.range n).zip cols)) c cs
      (List.range n).zip best
  else
    let Mt := transposeM M m
    match picks (List.range n) m with
    | [] => []
    | c :: cs =>
      let best := argminKey (fun rows => pairsCost Mt ((List.range m).zip rows)) c cs
      best.zip (List.range m)

/-- One entry of the assignment result. -/
structure Assignment (β : Type) : Type where
  order_id : Nat
  partner_id : Nat
  estimated_delivery_time : β
  distance : β
  cost : β
  efficiency_score : β
deriving DecidableEq

/-- Response of `assign_orders_to_partners`.  The source hardcodes
`unassigned_orders` and `unassigned_partners` to empty lists. -/
structure AssignResponse (β : Type) : Type where
  assignments : List (Assignment β)
  total_cost : β
  average_efficiency : β
  unassigned_orders : List Nat
  unassigned_partners : List Nat
deriving DecidableEq

/-- `assign_orders_to_partners`: build the cost matrix, solve it, and list
the matched pairs with their metrics (`calculate_delivery_time` is
`distance / 30 * 60`, `calculate_partner_efficiency` is
`(efficiency + 1 / (1 + distance)) / 2`). -/
def assign_orders_to_partners [Inhabited G] (d : G → G → β)
    (orders : List (Order G)) (partners : List (Partner G)) :
    Except Err (AssignResponse β) :=
  if orders = [] ∨ partners = [] then .error .invalidInput
  else
    let M := create_assignment_matrix d orders partners
    let pairs := hungarian_assignment M
    let assignments := pairs.map fun pr =>
      let o := orders.getD pr.1 default
      let p := partners.getD pr.2 default
      let dist := d o.location p.location
      { order_id := o.id
        partner_id := p.id
        estimated_delivery_time := dist / 30 * 60
        distance := dist
        cost := (M.getD pr.1 []).getD pr.2 0
        efficiency_score :=
          (((p.efficiency_score.getD (1/2) : ℚ) : β) + 1 / (1 + dist)) / 2 }
    .ok { assignments := assignments
          total_cost := pairsCost M pairs
          average_efficiency :=
            (assignments.map (·.efficiency_score)).sum / (assignments.length : β)
          unassigned_orders := []
          unassigned_partners := [] }

end Assignment

section Adjustment

variable {P : Type} [DecidableEq P] {β : Type} [LinearOrderedField β]

/-- Real-time condition delta of a dynamic-adjustment request. -/
structure RealTimeDelta : Type where
  edge_from : Nat := 0
  edge_to : Nat := 0
  added_minutes : ℚ := 0
deriving DecidableEq

/-- Constraints of a dynamic-adjustment request. -/
structure AdjustmentConstraints : Type where
  threshold_fraction : ℚ := 1/10
deriving DecidableEq

/-- A dynamic-adjustment request. -/
structure AdjustmentRequest (P : Type) : Type where
  current_route : List P
  real_time_data : RealTimeDelta
  adjustment_constraints : AdjustmentConstraints
deriving DecidableEq

/-- Analysis record produced by `analyze_real_time_conditions`. -/
structure AdjustmentAnalysis : Type where
  primary_issue : String
  severity : String
deriving DecidableEq

/-- Response of `dynamic_route_adjustment`. -/
structure AdjustmentResponse (P : Type) : Type where
  adjustment_needed : Bool
  adjusted_route : Option (List P)
  current_route_optimal : Option Bool
  confidence : ℚ
deriving DecidableEq

/-- `analyze_real_time_conditions` is a placeholder returning a constant
analysis. -/
def analyze_real_time_conditions (_route : List P) (_rtd : RealTimeDelta) :
    AdjustmentAnalysis :=
  { primary_issue := "none", severity := "low" }

/-- `evaluate_adjustment_need` is a placeholder returning `False`. -/
def evaluate_adjustment_need (_a : AdjustmentAnalysis)
    (_c : AdjustmentConstraints) : Bool :=
  false

/-- `generate_adjusted_route` is a placeholder returning the current
route. -/
def generate_adjusted_route (route : List P) (_a : AdjustmentAnalysis)
    (_c : AdjustmentConstraints) : List P :=
  route

/-- `dynamic_route_adjustment`: analyse conditions, decide whether to
adjust, and report either the adjusted route or
`{"adjustment_needed": False}`. -/
def dynamic_route_adjustment (req : AdjustmentRequest P) :
    AdjustmentResponse P :=
  let analysis := analyze_real_time_conditions req.current_route req.real_time_data
  if evaluate_adjustment_need analysis req.adjustment_constraints then
    { adjustment_needed := true
      adjusted_route := some (generate_adjusted_route req.current_route analysis
        req.adjustment_constraints)
      current_route_optimal := none
      confidence := 85/100 }
  else
    { adjustment_needed := false
      adjusted_route := none
      current_route_optimal := some true
      confidence := 9/10 }

/-- Modelled from the spec (§4.5), for comparison with the source: the
decision rule "recompute is triggered only if the delta's estimated added
cost exceeds a configurable threshold fraction of the current route's total
cost", with the route's total cost read as its estimated time under the
default speed and stop-time parameters. -/
def spec_adjustment_trigger (d : P → P → ℚ) (req : AdjustmentRequest P) : Bool :=
  decide (req.adjustment_constraints.threshold_fraction
      * estimate_delivery_time d defaultConstraints req.current_route
    < req.real_time_data.added_minutes)

end Adjustment

section Geometry

/-- A geographic point (`{"latitude": ..., "longitude": ...}`); the float
coordinates are modelled as real numbers. -/
structure GeoPoint : Type where
  latitude : ℝ
  longitude : ℝ

/-- `np.radians`. -/
noncomputable def radians (x : ℝ) : ℝ := x * Real.pi / 180

/-- `calculate_distance`: the haversine great-circle distance on a sphere of
radius 6371 km.  The float arithmetic of the source is idealised as exact
real arithmetic: properties that hinge on IEEE-double rounding (for
example `np.cos(np.radians(90))` being 6.1e-17 rather than 0, or the
underflow of the square of a tiny sine to exactly 0.0) are outside this
embedding, which is why no claim about the exact zero set of the float
program is settled here.  The symmetry, non-negativity and
distance(a,a) = 0 facts proved below are insensitive to rounding and hold
of the float program as well. -/
noncomputable def calculate_distance (p1 p2 : GeoPoint) : ℝ :=
  6371 * (2 * Real.arcsin (Real.sqrt (
    Real.sin ((radians p2.latitude - radians p1.latitude) / 2) ^ 2
      + Real.cos (radians p1.latitude) * Real.cos (radians p2.latitude)
        * Real.sin ((radians p2.longitude - radians p1.longitude) / 2) ^ 2)))

/-- A delivery point: an id and a location. -/
structure DeliveryPoint : Type where
  id : Nat
  location : GeoPoint

/-- The distance function the service instantiates every strategy with. -/
noncomputable def serviceDistance (p q : DeliveryPoint) : ℝ :=
  calculate_distance p.location q.location

end Geometry

section Instances

/-- Quadratic gap distance on three abstract points, used as a concrete
instantiation of the distance parameter. -/
def dEx : Fin 3 → Fin 3 → ℚ := fun a b => ((a : ℚ) - (b : ℚ)) ^ 2

/-- Three distinct delivery points. -/
def ptsEx : List (Fin 3) := [0, 1, 2]

/-- Small genetic parameters: population 4, one generation. -/
def consEx : Constraints := { population_size := 4, generations := 1 }

/-- Same as `consEx` but with zero ant-colony iterations. -/
def consIter0 : Constraints :=
  { population_size := 4, generations := 1, iterations := 0 }

/-- Population 4 and zero generations, one ant-colony iteration. -/
def consW : Constraints :=
  { population_size := 4, generations := 0, iterations := 1, ant_count := 1 }

/-- Constraints requesting an unsupported algorithm name. -/
def consAlg : Constraints :=
  { algorithm := some "dijkstra", population_size := 4, generations := 0 }

/-- A global random state whose integer draws are all 0 and whose float
draws are all 0.9 (every crossover and mutation coin declines). -/
def tapeA : Tape :=
  { ints := fun _ => 0, floats := fun _ => 9/10, ipos := 0, fpos := 0 }

/-- A global random state that shuffles the initial population to
`[[0,1,2],[0,2,1],[0,2,1],[0,2,1]]` and makes every tournament draw the
indices `{1,2,3}`; float draws all 0.9. -/
def tapeB : Tape :=
  { ints := fun i =>
      [0, 0, 0, 0, 1, 0, 0, 1, 0, 0, 1, 0,
       1, 1, 1, 1, 1, 1, 1, 1, 1, 1, 1, 1].getD i 0
    floats := fun _ => 9/10, ipos := 0, fpos := 0 }

/-- A global random state whose first float draw (0.5) makes the first
crossover coin fire. -/
def tapeC : Tape :=
  { ints := fun _ => 0, floats := fun _ => 1/2, ipos := 0, fpos := 0 }

/-- Two orders at abstract locations 0 and 1. -/
def ordersEx : List (Order Nat) := [⟨100, 0⟩, ⟨101, 1⟩]

/-- Three orders at abstract locations 0, 1 and 2. -/
def orders3Ex : List (Order Nat) := [⟨100, 0⟩, ⟨101, 1⟩, ⟨102, 2⟩]

/-- Two partners at abstract locations 10 and 11 with efficiency 1 (so the
cost-matrix multiplier is exactly 1). -/
def partnersEx : List (Partner Nat) := [⟨200, 10, some 1⟩, ⟨201, 11, some 1⟩]

/-- Distance table realising the cost matrix `[[1,4],[3,2]]` for
`ordersEx`/`partnersEx` (and extending it with a third order row). -/
def dAssign : Nat → Nat → ℚ := fun a b =>
  if a = 0 ∧ b = 10 then 1
  else if a = 0 ∧ b = 11 then 4
  else if a = 1 ∧ b = 10 then 3
  else if a = 1 ∧ b = 11 then 2
  else if a = 2 ∧ b = 10 then 5
  else if a = 2 ∧ b = 11 then 6
  else 0

/-- Constant unit distance on two abstract points. -/
def dOne : Fin 2 → Fin 2 → ℚ := fun _ _ => 1

/-- A dynamic-adjustment request whose delta adds 100 minutes against a
route whose estimated cost is 12 minutes (threshold 10%). -/
def reqEx : AdjustmentRequest (Fin 2) :=
  { current_route := [0, 1]
    real_time_data := { added_minutes := 100 }
    adjustment_constraints := { threshold_fraction := 1/10 } }

end Instances

/-! ### Helper lemmas: Python's `max`/`min` with a key -/

section FoldLemmas

variable {α : Type} {β : Type} [LinearOrder β]

theorem argmaxKey_mem (f : α → β) (x : α) (xs : List α) :
    argmaxKey f x xs ∈ x :: xs := by
  induction xs generalizing x with
  | nil => simp [argmaxKey]
  | cons y ys ih =>
    have h := ih (x := if f x < f y then y else x)
    have heq : argmaxKey f x (y :: ys) = argmaxKey f (if f x < f y then y else x) ys := by
      simp [argmaxKey]
    rw [heq]
    rcases mem_cons.mp h with h1 | h1
    · rw [h1]
      by_cases hxy : f x < f y <;> simp [hxy]
    · simp [h1]

theorem argmaxKey_le (f : α → β) (x : α) (xs : List α) :
    ∀ y ∈ x :: xs, f y ≤ f (argmaxKey f x xs) := by
  induction xs generalizing x with
  | nil =>
    intro y hy
    have h : y = x := by simpa using hy
    rw [h]
    simp [argmaxKey]
  | cons z zs ih =>
    intro y hy
    have hstep : argmaxKey f x (z :: zs) = argmaxKey f (if f x < f z then z else x) zs := by
      simp [argmaxKey]
    rw [hstep]
    have hhead : ∀ w, f w ≤ f (if f x < f z then z else x) →
        f w ≤ f (argmaxKey f (if f x < f z then z else x) zs) := by
      intro w hw
      exact le_trans hw (ih (x := if f x < f z then z else x) _ (mem_cons_self _ _))
    rcases mem_cons.mp hy with h | h
    · refine hhead y ?_
      rw [h]
      by_cases hxz : f x < f z
      · simp [hxz, le_of_lt hxz]
      · simp [hxz]
    · rcases mem_cons.mp h with h1 | h1
      · refine hhead y ?_
        rw [h1]
        by_cases hxz : f x < f z
        · simp [hxz]
        · simp [hxz, le_of_not_lt hxz]
      · exact ih (x := if f x < f z then z else x) y (mem_cons_of_mem _ h1)

theorem argminKey_mem (f : α → β) (x : α) (xs : List α) :
    argminKey f x xs ∈ x :: xs := by
  induction xs generalizing x with
  | nil => simp [argminKey]
  | cons y ys ih =>
    have h := ih (x := if f y < f x then y else x)
    have heq : argminKey f x (y :: ys) = argminKey f (if f y < f x then y else x) ys := by
      simp [argminKey]
    rw [heq]
    rcases mem_cons.mp h with h1 | h1
    · rw [h1]
      by_cases hxy : f y < f x <;> simp [hxy]
    · simp [h1]

theorem argminKey_le (f : α → β) (x : α) (xs : List α) :
    ∀ y ∈ x :: xs, f (argminKey f x xs) ≤ f y := by
  induction xs generalizing x with
  | nil =>
    intro y hy
    have h : y = x := by simpa using hy
    rw [h]
    simp [argminKey]
  | cons z zs ih =>
    intro y hy
    have hstep : argminKey f x (z :: zs) = argminKey f (if f z < f x then z else x) zs := by
      simp [argminKey]
    rw [hstep]
    have hhead : ∀ w, f (if f z < f x then z else x) ≤ f w →
        f (argminKey f (if f z < f x then z else x) zs) ≤ f w := by
      intro w hw
      exact le_trans (ih (x := if f z < f x then z else x) _ (mem_cons_self _ _)) hw
    rcases mem_cons.mp hy with h | h
    · refine hhead y ?_
      rw [h]
      by_cases hzx : f z < f x
      · simp [hzx, le_of_lt hzx]
      · simp [hzx]
    · rcases mem_cons.mp h with h1 | h1
      · refine hhead y ?_
        rw [h1]
        by_cases hzx : f z < f x
        · simp [hzx]
        · simp [hzx, le_of_not_lt hzx]
      · exact ih (x := if f z < f x then z else x) y (mem_cons_of_mem _ h1)

theorem liftSome_of_forall_some {l : List (Option α)}
    (h : ∀ o ∈ l, ∃ x, o = some x) : ∃ xs, liftSome l = some xs := by
  induction l with
  | nil => exact ⟨[], rfl⟩
  | cons o os ih =>
    rcases h o (mem_cons_self _ _) with ⟨x, hx⟩
    rcases ih (fun o' ho' => h o' (mem_cons_of_mem _ ho')) with ⟨xs, hxs⟩
    exact ⟨x :: xs, by simp [hx, liftSome, hxs]⟩

theorem mem_of_liftSome {l : List (Option α)} {xs : List α}
    (h : liftSome l = some xs) : ∀ q ∈ xs, some q ∈ l := by
  induction l generalizing xs with
  | nil =>
    simp only [liftSome] at h
    cases h
    intro q hq; simp at hq
  | cons o os ih =>
    match o, h with
    | some x, h =>
      simp only [liftSome] at h
      rcases hrec : liftSome os with _ | ys
      · rw [hrec] at h; simp at h
      · rw [hrec] at h
        have h' : x :: ys = xs := by simpa using h
        cases h'
        intro q hq
        rcases mem_cons.mp hq with h1 | h1
        · rw [h1]; exact mem_cons_self _ _
        · exact mem_cons_of_mem _ (ih hrec q h1)

theorem liftSome_length {l : List (Option α)} {xs : List α}
    (h : liftSome l = some xs) : xs.length = l.length := by
  induction l generalizing xs with
  | nil => simp only [liftSome] at h; cases h; rfl
  | cons o os ih =>
    match o, h with
    | some x, h =>
      simp only [liftSome] at h
      rcases hrec : liftSome os with _ | ys
      · rw [hrec] at h; simp at h
      · rw [hrec] at h
        have h' : x :: ys = xs := by simpa using h
        cases h'
        simp [ih hrec]

end FoldLemmas

/-! ### Helper lemmas: the in-place swap is a permutation -/

section SwapLemmas

variable {α : Type}

theorem cons_set_perm (xs : List α) (j : Nat) (hj : j < xs.length) (v : α) :
    List.Perm (xs[j] :: xs.set j v) (v :: xs) := by
  induction xs generalizing j with
  | nil => simp at hj
  | cons y ys ih =>
    cases j with
    | zero => exact List.Perm.swap v y ys
    | succ j =>
      have hj' : j < ys.length := by simpa using hj
      calc ys[j] :: y :: ys.set j v
          ~ y :: ys[j] :: ys.set j v := List.Perm.swap _ _ _
        _ ~ y :: v :: ys := List.Perm.cons y (ih j hj')
        _ ~ v :: y :: ys := List.Perm.swap _ _ _

theorem swapIdx_perm (r : List α) (i j : Nat) : List.Perm (swapIdx r i j) r := by
  induction r generalizing i j with
  | nil => simp [swapIdx]
  | cons y ys ih =>
    cases i with
    | zero =>
      cases j with
      | zero => simp [swapIdx]
      | succ k =>
        rcases hk : ys[k]? with _ | vj
        · simp [swapIdx, hk]
        · have hlt : k < ys.length := (List.getElem?_eq_some.mp hk).1
          have hval : ys[k] = vj := (List.getElem?_eq_some.mp hk).2
          have hred : swapIdx (y :: ys) 0 (k + 1) = vj :: ys.set k y := by
            simp [swapIdx, hk]
          rw [hred, ← hval]
          exact cons_set_perm ys k hlt y
    | succ k =>
      cases j with
      | zero =>
        rcases hk : ys[k]? with _ | vi
        · simp [swapIdx, hk]
        · have hlt : k < ys.length := (List.getElem?_eq_some.mp hk).1
          have hval : ys[k] = vi := (List.getElem?_eq_some.mp hk).2
          have hred : swapIdx (y :: ys) (k + 1) 0 = vi :: ys.set k y := by
            simp [swapIdx, hk]
          rw [hred, ← hval]
          exact cons_set_perm ys k hlt y
      | succ l =>
        rcases hk : ys[k]? with _ | vi
        · simp [swapIdx, hk]
        · rcases hl : ys[l]? with _ | vj
          · simp [swapIdx, hk, hl]
          · have hih := ih k l
            simp only [swapIdx, hk, hl] at hih
            simpa [swapIdx, hk, hl] using List.Perm.cons y hih

end SwapLemmas

/-! ### Sampling and shuffling lemmas -/

section SampleLemmas

theorem drawLoop_spec (k : Nat) :
    ∀ (pool : List Nat) (t : Tape), pool.Nodup → k ≤ pool.length →
      ((drawLoop pool k t).1).Nodup ∧ (drawLoop pool k t).1.length = k ∧
        ∀ x ∈ (drawLoop pool k t).1, x ∈ pool := by
  induction k with
  | zero =>
    intro pool t hnd hk
    simp [drawLoop]
  | succ k ih =>
    intro pool t hnd hk
    have hpos : 0 < pool.length := lt_of_lt_of_le (Nat.succ_pos k) hk
    set r := (t.nextInt).1 with hr
    set t1 := (t.nextInt).2 with ht1
    have hidx : r % pool.length < pool.length := Nat.mod_lt _ hpos
    have hc : pool.getD (r % pool.length) 0 ∈ pool := by
      rw [List.getD_eq_getElem pool 0 hidx]
      exact List.getElem_mem hidx
    set c := pool.getD (r % pool.length) 0 with hcdef
    have hlen : (pool.erase c).length = pool.length - 1 :=
      List.length_erase_of_mem hc
    have hk' : k ≤ (pool.erase c).length := by omega
    have hnd' : (pool.erase c).Nodup := hnd.erase c
    have hrec := ih (pool.erase c) t1 hnd' hk'
    have hres : drawLoop pool (k + 1) t =
        (c :: (drawLoop (pool.erase c) k t1).1, (drawLoop (pool.erase c) k t1).2) := rfl
    rw [hres]
    have hcnot : c ∉ pool.erase c := by
      intro hmem
      exact ((hnd.mem_erase_iff).mp hmem).1 rfl
    refine ⟨?_, ?_, ?_⟩
    · exact List.nodup_cons.mpr ⟨fun hmem => hcnot (hrec.2.2 _ hmem), hrec.1⟩
    · simp [hrec.2.1]
    · intro x hx
      rcases List.mem_cons.mp hx with h1 | h1
      · rw [h1]; exact hc
      · exact (pool.erase_sublist c).mem (hrec.2.2 _ h1)

theorem sample_range_ok {n k : Nat} {t : Tape} {l : List Nat} {t1 : Tape}
    (h : sample_range n k t = (.ok l, t1)) :
    l.Nodup ∧ l.length = k ∧ (∀ x ∈ l, x < n) ∧ k ≤ n := by
  by_cases hk : k ≤ n
  · have hres : sample_range n k t = (.ok (drawLoop (List.range n) k t).1,
        (drawLoop (List.range n) k t).2) := by
      simp [sample_range, hk]
    rw [hres] at h
    have hl : l = (drawLoop (List.range n) k t).1 := by
      cases h; rfl
    have hspec := drawLoop_spec k (List.range n) t (List.nodup_range n)
      (by simpa using hk)
    refine ⟨hl ▸ hspec.1, hl ▸ hspec.2.1, ?_, hk⟩
    intro x hx
    have := hspec.2.2 x (hl ▸ hx)
    exact List.mem_range.mp this
  · exfalso
    simp [sample_range, hk] at h

theorem shuffleDraw_perm {P : Type} [DecidableEq P] (fuel : Nat) :
    ∀ (pool : List P) (t : Tape), pool.length = fuel →
      List.Perm ((shuffleDraw pool fuel t).1) pool := by
  induction fuel with
  | zero =>
    intro pool t hlen
    have : pool = [] := List.length_eq_zero.mp hlen
    simp [this, shuffleDraw]
  | succ fuel ih =>
    intro pool t hlen
    match pool, hlen with
    | x :: xs, hlen =>
      have hpos : 0 < (x :: xs).length := by simp
      set r := (t.nextInt).1 with hr
      set t1 := (t.nextInt).2 with ht1
      have hidx : r % (x :: xs).length < (x :: xs).length := Nat.mod_lt _ hpos
      have hc : (x :: xs).getD (r % (x :: xs).length) x ∈ x :: xs := by
        rw [List.getD_eq_getElem (x :: xs) x hidx]
        exact List.getElem_mem hidx
      set c := (x :: xs).getD (r % (x :: xs).length) x with hcdef
      have hlen' : ((x :: xs).erase c).length = fuel := by
        rw [List.length_erase_of_mem hc]
        omega
      have hrec := ih ((x :: xs).erase c) t1 hlen'
      have hres : shuffleDraw (x :: xs) (fuel + 1) t =
          (c :: (shuffleDraw ((x :: xs).erase c) fuel t1).1,
           (shuffleDraw ((x :: xs).erase c) fuel t1).2) := rfl
      rw [hres]
      exact (List.Perm.cons c hrec).trans (List.perm_cons_erase hc).symm

theorem shuffleList_perm {P : Type} [DecidableEq P] (l : List P) (t : Tape) :
    List.Perm ((shuffleList l t).1) l :=
  shuffleDraw_perm l.length l t rfl

theorem init_population_perm {P : Type} [DecidableEq P] (pts : List P) (k : Nat) :
    ∀ (t : Tape) (r : List P), r ∈ (init_population pts k t).1 →
      List.Perm r pts := by
  induction k with
  | zero => intro t r hr; simp [init_population] at hr
  | succ k ih =>
    intro t r hr
    have hres : init_population pts (k + 1) t =
        ((shuffleList pts t).1 :: (init_population pts k (shuffleList pts t).2).1,
         (init_population pts k (shuffleList pts t).2).2) := by
      simp only [init_population]
    rw [hres] at hr
    rcases List.mem_cons.mp hr with h1 | h1
    · rw [h1]; exact shuffleList_perm pts t
    · exact ih _ r h1

end SampleLemmas

/-! ### Order crossover preserves the point multiset -/

section OxLemmas

variable {P : Type} [DecidableEq P]

theorem oxFill_perm {p1 p2 base : List P} (h1 : List.Perm p1 base)
    (h2 : List.Perm p2 base) {s e : Nat} (he : e ≤ p1.length) {c : List P}
    (h : oxFill p1 p2 s e = .ok c) : List.Perm c base := by
  classical
  set seg := (p1.drop s).take (e - s) with hseg
  set rem := p2.filter (fun x => decide (x ∉ seg)) with hrem
  set filterIn := p2.filter (fun x => decide (x ∈ seg)) with hfin
  have hsub : seg.Sublist p1 := ((p1.drop s).take_sublist _).trans (p1.drop_sublist s)
  have hseglen : seg.length ≤ p1.length := hsub.length_le
  have hsplit : List.Perm (filterIn ++ rem) p2 := by
    have := List.filter_append_perm (fun x => decide (x ∈ seg)) p2
    simpa [hfin, hrem, decide_not] using this
  have hlensum : filterIn.length + rem.length = p2.length := by
    have := hsplit.length_eq
    simpa using this
  have hlen12 : p1.length = p2.length := by
    rw [h1.length_eq, h2.length_eq]
  -- the fill loop succeeded, so the remaining elements cover the holes
  have hok : ¬ rem.length < p1.length - seg.length := by
    intro hcon
    simp only [oxFill, ← hseg, ← hrem] at h
    rw [if_pos hcon] at h
    cases h
  have hcount : ∀ a ∈ seg, seg.count a ≤ filterIn.count a := by
    intro a ha
    have h1c : seg.count a ≤ p1.count a := hsub.count_le a
    have h2c : p1.count a = p2.count a := by
      rw [h1.count_eq, h2.count_eq]
    have h3c : filterIn.count a = p2.count a := by
      rw [hfin]
      exact List.count_filter (by simpa using ha)
    omega
  have hsubperm : seg.Subperm filterIn := List.subperm_ext_iff.mpr hcount
  have hfinlen : filterIn.length ≤ seg.length := by omega
  have hpermfin : List.Perm seg filterIn := hsubperm.perm_of_length_le hfinlen
  have hremlen : rem.length = p1.length - seg.length := by
    have := hpermfin.length_eq
    omega
  -- the successful branch returns the filled child
  have hc : c = rem.take s ++ seg ++ (rem.drop s).take (p1.length - e) := by
    simp only [oxFill, ← hseg, ← hrem] at h
    rw [if_neg hok] at h
    cases h
    rfl
  have hdropfull : (rem.drop s).take (p1.length - e) = rem.drop s := by
    apply List.take_of_length_le
    simp only [List.length_drop]
    have hseglen2 : seg.length = min (e - s) (p1.length - s) := by
      rw [hseg]
      simp
    omega
  rw [List.perm_iff_count]
  intro a
  have hsplitc : rem.take s ++ rem.drop s = rem := rem.take_append_drop s
  have hcrem : (rem.take s).count a + (rem.drop s).count a = rem.count a := by
    rw [← List.count_append, hsplitc]
  have hcp2 : filterIn.count a + rem.count a = p2.count a := by
    rw [← List.count_append]
    exact hsplit.count_eq a
  have hcc : c.count a = (rem.take s).count a + seg.count a + (rem.drop s).count a := by
    rw [hc, hdropfull]
    simp only [List.count_append]
  rw [hcc, ← h2.count_eq a, ← hcp2, hpermfin.count_eq a]
  omega

end OxLemmas

/-! ### Genetic-algorithm invariants -/

section GaLemmas

variable {P : Type} [DecidableEq P] {beta : Type} [LinearOrderedField beta]

theorem crossover_perm {cr : ℚ} {base p1 p2 c1 c2 : List P} {t t2 : Tape}
    (h1 : List.Perm p1 base) (h2 : List.Perm p2 base)
    (h : crossover cr p1 p2 t = (.ok (c1, c2), t2)) :
    List.Perm c1 base ∧ List.Perm c2 base := by
  by_cases hf : cr < (t.nextFloat).1
  · simp only [crossover, if_pos hf] at h
    obtain ⟨heq, -⟩ := Prod.mk.injEq .. |>.mp h
    obtain ⟨e1, e2⟩ := Prod.mk.injEq .. |>.mp (Except.ok.inj heq)
    exact ⟨e1 ▸ h1, e2 ▸ h2⟩
  · simp only [crossover, if_neg hf] at h
    rcases hs : sample_range p1.length 2 (t.nextFloat).2 with ⟨res, t3⟩
    rw [hs] at h
    cases res with
    | error e => simp at h
    | ok idxs =>
      simp only at h
      have hspec := sample_range_ok hs
      have ha : idxs.getD 0 0 < p1.length := by
        apply hspec.2.2.1
        rcases idxs with _ | ⟨x, rest⟩
        · simp at hspec
        · simp
      have hb : idxs.getD 1 0 < p1.length := by
        apply hspec.2.2.1
        rcases idxs with _ | ⟨x, _ | ⟨y, rest⟩⟩
        · simp at hspec
        · obtain ⟨-, hlen2, -⟩ := hspec
          simp at hlen2
        · simp
      have hmax : max (idxs.getD 0 0) (idxs.getD 1 0) ≤ p1.length :=
        max_le ha.le hb.le
      have hmax2 : max (idxs.getD 0 0) (idxs.getD 1 0) ≤ p2.length := by
        have : p1.length = p2.length := by rw [h1.length_eq, h2.length_eq]
        omega
      rcases hox1 : oxFill p1 p2 (min (idxs.getD 0 0) (idxs.getD 1 0))
          (max (idxs.getD 0 0) (idxs.getD 1 0)) with e1 | d1 <;>
        rcases hox2 : oxFill p2 p1 (min (idxs.getD 0 0) (idxs.getD 1 0))
            (max (idxs.getD 0 0) (idxs.getD 1 0)) with e2 | d2 <;>
        rw [hox1, hox2] at h <;> simp only at h
      · cases h
      · cases h
      · cases h
      · obtain ⟨heq, -⟩ := Prod.mk.injEq .. |>.mp h
        obtain ⟨e1, e2⟩ := Prod.mk.injEq .. |>.mp (Except.ok.inj heq)
        exact ⟨e1 ▸ oxFill_perm h1 h2 hmax hox1,
               e2 ▸ oxFill_perm h2 h1 hmax2 hox2⟩

theorem mutate_perm {mr : ℚ} {base r m : List P} {t t2 : Tape}
    (hr : List.Perm r base) (h : mutate mr r t = (.ok m, t2)) :
    List.Perm m base := by
  by_cases hf : (t.nextFloat).1 < mr
  · simp only [mutate, if_pos hf] at h
    rcases hs : sample_range r.length 2 (t.nextFloat).2 with ⟨res, t3⟩
    rw [hs] at h
    cases res with
    | error e => simp at h
    | ok idxs =>
      simp only at h
      obtain ⟨heq, -⟩ := Prod.mk.injEq .. |>.mp h
      exact (Except.ok.inj heq) ▸ ((swapIdx_perm r _ _).trans hr)
  · simp only [mutate, if_neg hf] at h
    obtain ⟨heq, -⟩ := Prod.mk.injEq .. |>.mp h
    exact (Except.ok.inj heq) ▸ hr

theorem tournament_selection_mem {fits : List beta} {pop : List (List P)} :
    ∀ (k : Nat) (t : Tape) (sel : List (List P)) (t1 : Tape),
      tournament_selection fits pop k t = (.ok sel, t1) →
      ∀ r ∈ sel, r ∈ pop := by
  intro k
  induction k with
  | zero =>
    intro t sel t1 h r hr
    simp only [tournament_selection] at h
    obtain ⟨heq, -⟩ := Prod.mk.injEq .. |>.mp h
    rw [← Except.ok.inj heq] at hr
    simp at hr
  | succ k ih =>
    intro t sel t1 h r hr
    simp only [tournament_selection] at h
    rcases hs : sample_range pop.length 3 t with ⟨res, t2⟩
    rw [hs] at h
    cases res with
    | error e => simp at h
    | ok idxs =>
      simp only at h
      rcases hrec : tournament_selection fits pop k t2 with ⟨res2, t3⟩
      rw [hrec] at h
      cases res2 with
      | error e => simp at h
      | ok rest =>
        simp only at h
        obtain ⟨heq, -⟩ := Prod.mk.injEq .. |>.mp h
        rw [← Except.ok.inj heq] at hr
        rcases List.mem_cons.mp hr with hcase | hcase
        · have hspec := sample_range_ok hs
          rcases hne : idxs with _ | ⟨i, is⟩
          · rw [hne] at hspec
            simp at hspec
          · have hwin : pickWinner fits idxs ∈ idxs := by
              rw [hne, pickWinner]
              exact argmaxKey_mem _ i is
            have hlt : pickWinner fits idxs < pop.length := hspec.2.2.1 _ hwin
            rw [hcase]
            rw [List.getD_eq_getElem pop [] hlt]
            exact List.getElem_mem hlt
        · exact ih t2 rest t3 hrec r hcase

theorem pairLoop_perm {cr mr : ℚ} {base : List P} :
    ∀ (n : Nat) (sel : List (List P)), sel.length ≤ n →
      ∀ (t : Tape) (out : List (List P)) (t1 : Tape),
        (∀ r ∈ sel, List.Perm r base) → pairLoop cr mr sel t = (.ok out, t1) →
        ∀ r ∈ out, List.Perm r base := by
  intro n
  induction n with
  | zero =>
    intro sel hlen t out t1 hall h r hr
    have hnil : sel = [] := List.length_eq_zero.mp (Nat.le_zero.mp hlen)
    rw [hnil] at h
    simp only [pairLoop] at h
    obtain ⟨heq, -⟩ := Prod.mk.injEq .. |>.mp h
    rw [← Except.ok.inj heq] at hr
    simp at hr
  | succ n ih =>
    intro sel hlen t out t1 hall h r hr
    match sel, hlen, hall, h with
    | [], _, _, h =>
      simp only [pairLoop] at h
      obtain ⟨heq, -⟩ := Prod.mk.injEq .. |>.mp h
      rw [← Except.ok.inj heq] at hr
      simp at hr
    | [x], _, hall, h =>
      simp only [pairLoop] at h
      obtain ⟨heq, -⟩ := Prod.mk.injEq .. |>.mp h
      rw [← Except.ok.inj heq] at hr
      have hx : r = x := by simpa using hr
      exact hx ▸ hall x (by simp)
    | x :: y :: rest, hlen, hall, h =>
      simp only [pairLoop] at h
      rcases hcx : crossover cr x y t with ⟨resc, t2⟩
      rw [hcx] at h
      rcases resc with e | ⟨c1, c2⟩
      · simp at h
      · simp only at h
        have hperm12 := crossover_perm (hall x (by simp)) (hall y (by simp)) hcx
        rcases hm1 : mutate mr c1 t2 with ⟨resm1, t3⟩
        rw [hm1] at h
        rcases resm1 with e | m1
        · simp at h
        · simp only at h
          rcases hm2 : mutate mr c2 t3 with ⟨resm2, t4⟩
          rw [hm2] at h
          rcases resm2 with e | m2
          · simp at h
          · simp only at h
            rcases hrest : pairLoop cr mr rest t4 with ⟨resr, t5⟩
            rw [hrest] at h
            rcases resr with e | tail
            · simp at h
            · simp only at h
              obtain ⟨heq, -⟩ := Prod.mk.injEq .. |>.mp h
              rw [← Except.ok.inj heq] at hr
              rcases List.mem_cons.mp hr with hc1 | hc1
              · exact hc1 ▸ mutate_perm hperm12.1 hm1
              · rcases List.mem_cons.mp hc1 with hc2 | hc2
                · exact hc2 ▸ mutate_perm hperm12.2 hm2
                · refine ih rest ?_ t4 tail t5
                    (fun q hq => hall q (by simp [hq])) hrest r hc2
                  have hl2 : rest.length + 2 ≤ n + 1 := by simpa using hlen
                  omega

theorem evolveStep_perm {d : P → P → beta} {cr mr : ℚ} {base : List P}
    {pop pop1 : List (List P)} {t t1 : Tape}
    (hall : ∀ r ∈ pop, List.Perm r base)
    (h : evolveStep d cr mr pop t = (.ok pop1, t1)) :
    ∀ r ∈ pop1, List.Perm r base := by
  simp only [evolveStep] at h
  rcases hts : tournament_selection (pop.map (calculate_fitness d)) pop pop.length t
    with ⟨res, t2⟩
  rw [hts] at h
  cases res with
  | error e => simp at h
  | ok selected =>
    simp only at h
    have hsel : ∀ r ∈ selected, List.Perm r base := by
      intro r hrs
      exact hall r (tournament_selection_mem pop.length t selected t2 hts r hrs)
    exact pairLoop_perm selected.length selected le_rfl t2 pop1 t1 hsel h

theorem evolveN_perm {d : P → P → beta} {cr mr : ℚ} {base : List P} :
    ∀ (g : Nat) (pop : List (List P)) (t : Tape) (popF : List (List P)) (t1 : Tape),
      (∀ r ∈ pop, List.Perm r base) →
      evolveN d cr mr g pop t = (.ok popF, t1) →
      ∀ r ∈ popF, List.Perm r base := by
  intro g
  induction g with
  | zero =>
    intro pop t popF t1 hall h
    simp only [evolveN] at h
    obtain ⟨heq, -⟩ := Prod.mk.injEq .. |>.mp h
    exact Except.ok.inj heq ▸ hall
  | succ g ih =>
    intro pop t popF t1 hall h
    simp only [evolveN] at h
    rcases hstep : evolveStep d cr mr pop t with ⟨res, t2⟩
    rw [hstep] at h
    cases res with
    | error e => simp at h
    | ok pop1 =>
      simp only at h
      exact ih pop1 t2 popF t1 (evolveStep_perm hall hstep) h

theorem genetic_ok_perm {d : P → P → beta} {pts : List P} {c : Constraints}
    {t : Tape} {o : Option (List P)}
    (h : (genetic_algorithm_optimization d pts c t).1 = .ok o) :
    ∃ r, o = some r ∧ List.Perm r pts := by
  simp only [genetic_algorithm_optimization] at h
  rcases hev : evolveN d c.crossover_rate c.mutation_rate c.generations
      (init_population pts c.population_size t).1
      (init_population pts c.population_size t).2 with ⟨res, t2⟩
  rw [hev] at h
  cases res with
  | error e => simp at h
  | ok popF =>
    have hallF : ∀ r ∈ popF, List.Perm r pts :=
      evolveN_perm c.generations _ _ popF t2
        (fun r hr => init_population_perm pts c.population_size t r hr) hev
    cases popF with
    | nil => simp at h
    | cons x xs =>
      simp only at h
      refine ⟨argmaxKey (calculate_fitness d) x xs, (Except.ok.inj h).symm, ?_⟩
      exact hallF _ (argmaxKey_mem _ x xs)

end GaLemmas

/-! ### Ant-colony, greedy and hybrid lemmas -/

section StrategyLemmas

variable {P : Type} [DecidableEq P] {beta : Type} [LinearOrderedField beta]

theorem antBest_some_self (d : P → P → beta) (pts : List P) :
    antBest d (some pts) pts = some pts := by
  simp [antBest]

theorem foldl_antBest_some (d : P → P → beta) (pts : List P) (ac : Nat) :
    (List.replicate ac pts).foldl (antBest d) (some pts) = some pts := by
  induction ac with
  | zero => rfl
  | succ ac ih => simpa [List.replicate_succ, antBest_some_self] using ih

theorem antIteration_none (d : P → P → beta) (pts : List P) (ac : Nat) :
    antIteration d pts ac none = if ac = 0 then none else some pts := by
  cases ac with
  | zero => rfl
  | succ ac =>
    simp only [antIteration, List.replicate_succ, List.foldl_cons]
    have h1 : antBest d none pts = some pts := rfl
    rw [h1, foldl_antBest_some]
    simp

theorem antIteration_some_self (d : P → P → beta) (pts : List P) (ac : Nat) :
    antIteration d pts ac (some pts) = some pts :=
  foldl_antBest_some d pts ac

theorem antLoop_some_self (d : P → P → beta) (pts : List P) (ac : Nat) :
    ∀ it : Nat, antLoop d pts ac it (some pts) = some pts := by
  intro it
  induction it with
  | zero => rfl
  | succ it ih =>
    simp only [antLoop, antIteration_some_self]
    exact ih

theorem antLoop_eq (d : P → P → beta) (pts : List P) (ac : Nat) :
    ∀ it : Nat, antLoop d pts ac it none =
      if it = 0 ∨ ac = 0 then none else some pts := by
  intro it
  induction it with
  | zero => simp [antLoop]
  | succ it ih =>
    simp only [antLoop, antIteration_none]
    by_cases hac : ac = 0
    · rw [if_pos hac]
      rw [ih]
      simp [hac]
    · rw [if_neg hac]
      rw [antLoop_some_self]
      simp [hac]

theorem ant_colony_route (d : P → P → beta) (pts : List P) (c : Constraints)
    (t : Tape) :
    (ant_colony_optimization d pts c t).1 =
      .ok (if c.iterations = 0 ∨ c.ant_count = 0 then none else some pts) := by
  simp [ant_colony_optimization, antLoop_eq]

theorem greedyGo_perm (d : P → P → beta) :
    ∀ (fuel : Nat) (cur : P) (unv : List P), unv.length = fuel →
      List.Perm (greedyGo d fuel cur unv) (cur :: unv) := by
  intro fuel
  induction fuel with
  | zero =>
    intro cur unv hlen
    have : unv = [] := List.length_eq_zero.mp hlen
    rw [this]
    simp [greedyGo]
  | succ fuel ih =>
    intro cur unv hlen
    match unv, hlen with
    | x :: xs, hlen =>
      simp only [greedyGo]
      have hmem : argminKey (fun p => d cur p) x xs ∈ x :: xs :=
        argminKey_mem _ x xs
      have hlen2 : ((x :: xs).erase (argminKey (fun p => d cur p) x xs)).length = fuel := by
        rw [List.length_erase_of_mem hmem]
        simpa using hlen
      have hrec := ih (argminKey (fun p => d cur p) x xs)
        ((x :: xs).erase (argminKey (fun p => d cur p) x xs)) hlen2
      calc cur :: greedyGo d fuel (argminKey (fun p => d cur p) x xs)
            ((x :: xs).erase (argminKey (fun p => d cur p) x xs))
          ~ cur :: (argminKey (fun p => d cur p) x xs ::
              (x :: xs).erase (argminKey (fun p => d cur p) x xs)) :=
            List.Perm.cons cur hrec
        _ ~ cur :: x :: xs := List.Perm.cons cur (List.perm_cons_erase hmem).symm

theorem greedy_ok_perm {d : P → P → beta} {pts : List P} {o : Option (List P)}
    (h : greedy_optimization d pts = .ok o) :
    ∃ r, o = some r ∧ List.Perm r pts := by
  cases pts with
  | nil => simp [greedy_optimization] at h
  | cons x xs =>
    simp only [greedy_optimization] at h
    exact ⟨greedyGo d xs.length x xs, (Except.ok.inj h).symm,
      greedyGo_perm d xs.length x xs rfl⟩

theorem hybrid_ok_perm {d : P → P → beta} {pts : List P} {c : Constraints}
    {t : Tape} {o : Option (List P)}
    (h : (hybrid_optimization d pts c t).1 = .ok o) :
    ∃ r, o = some r ∧ List.Perm r pts := by
  simp only [hybrid_optimization] at h
  set rg := (genetic_algorithm_optimization d pts c t).1 with hrg
  set ra := (ant_colony_optimization d pts c
    (genetic_algorithm_optimization d pts c t).2).1 with hra
  set rgr := greedy_optimization d pts with hrgr
  have hmemperm : ∀ oo ∈ [rg, ra, rgr].filterMap Except.toOption,
      ∀ q, oo = some q → List.Perm q pts := by
    intro oo hoo q hq
    rcases List.mem_filterMap.mp hoo with ⟨x, hx, hxo⟩
    have hxok : x = .ok oo := by
      cases x with
      | error e => simp [Except.toOption] at hxo
      | ok v => simp [Except.toOption] at hxo; rw [hxo]
    have hx3 : x = rg ∨ x = ra ∨ x = rgr := by simpa using hx
    rcases hx3 with h3 | h3 | h3
    · have hok : (genetic_algorithm_optimization d pts c t).1 = .ok oo := by
        rw [← hrg, ← h3, hxok]
      rcases genetic_ok_perm hok with ⟨r, hr1, hr2⟩
      rw [hq] at hr1
      exact (Option.some.inj hr1) ▸ hr2
    · have hra2 : (ant_colony_optimization d pts c
          (genetic_algorithm_optimization d pts c t).2).1 = .ok oo := by
        rw [← hra, ← h3, hxok]
      rw [ant_colony_route] at hra2
      have hoo2 := Except.ok.inj hra2
      by_cases hc0 : c.iterations = 0 ∨ c.ant_count = 0
      · rw [if_pos hc0] at hoo2
        rw [← hoo2] at hq
        cases hq
      · rw [if_neg hc0] at hoo2
        rw [← hoo2] at hq
        exact (Option.some.inj hq).symm ▸ List.Perm.refl pts
    · have hok : greedy_optimization d pts = .ok oo := by
        rw [← hrgr, ← h3, hxok]
      rcases greedy_ok_perm hok with ⟨r, hr1, hr2⟩
      rw [hq] at hr1
      exact (Option.some.inj hr1) ▸ hr2
  rcases hsucc : [rg, ra, rgr].filterMap Except.toOption with _ | ⟨o1, os⟩
  · rw [hsucc] at h
    simp at h
  · rw [hsucc] at h
    simp only at h
    rcases hlift : liftSome (o1 :: os) with _ | routes
    · rw [hlift] at h
      simp at h
    · rw [hlift] at h
      cases routes with
      | nil => simp at h
      | cons q qs =>
        simp only at h
        refine ⟨argmaxKey (calculate_fitness d) q qs, (Except.ok.inj h).symm, ?_⟩
        have hmem := argmaxKey_mem (calculate_fitness d) q qs
        have hin : some (argmaxKey (calculate_fitness d) q qs) ∈ o1 :: os :=
          mem_of_liftSome hlift _ hmem
        exact hmemperm _ (hsucc ▸ hin) _ rfl

end StrategyLemmas

/-! ### Fitness and total-distance comparison lemmas -/

section FitnessLemmas

variable {P : Type} {beta : Type} [LinearOrderedField beta]

theorem calculate_total_distance_nonneg {d : P → P → beta}
    (hd : ∀ a b, 0 ≤ d a b) : ∀ r : List P, 0 ≤ calculate_total_distance d r := by
  intro r
  induction r with
  | nil => simp [calculate_total_distance]
  | cons a rest ih =>
    cases rest with
    | nil => simp [calculate_total_distance]
    | cons b rest2 =>
      simp only [calculate_total_distance]
      exact add_nonneg (hd a b) ih

theorem fitness_le_iff {x y : beta} (hx : 0 ≤ x) (hy : 0 ≤ y) :
    1 / (1 + x) ≤ 1 / (1 + y) ↔ y ≤ x := by
  have h1 : (0 : beta) < 1 + x := by linarith
  have h2 : (0 : beta) < 1 + y := by linarith
  rw [one_div_le_one_div h1 h2]
  constructor <;> intro h <;> linarith

theorem fitness_le_distance_le {d : P → P → beta} (hd : ∀ a b, 0 ≤ d a b)
    {r s : List P} (h : calculate_fitness d s ≤ calculate_fitness d r) :
    calculate_total_distance d r ≤ calculate_total_distance d s := by
  have hr := calculate_total_distance_nonneg hd r
  have hs := calculate_total_distance_nonneg hd s
  exact (fitness_le_iff hs hr).mp h

end FitnessLemmas

/-! ### Haversine distance lemmas -/

section GeometryLemmas

theorem calculate_distance_symm (p q : GeoPoint) :
    calculate_distance p q = calculate_distance q p := by
  unfold calculate_distance
  have key : ∀ a b : ℝ, Real.sin ((a - b) / 2) ^ 2 = Real.sin ((b - a) / 2) ^ 2 := by
    intro a b
    have h : (a - b) / 2 = -((b - a) / 2) := by ring
    rw [h, Real.sin_neg]
    ring
  rw [key (radians q.latitude) (radians p.latitude),
    key (radians q.longitude) (radians p.longitude),
    mul_comm (Real.cos (radians p.latitude)) (Real.cos (radians q.latitude))]

theorem calculate_distance_nonneg (p q : GeoPoint) :
    0 ≤ calculate_distance p q := by
  unfold calculate_distance
  have h1 : 0 ≤ Real.arcsin (Real.sqrt (
      Real.sin ((radians q.latitude - radians p.latitude) / 2) ^ 2
        + Real.cos (radians p.latitude) * Real.cos (radians q.latitude)
          * Real.sin ((radians q.longitude - radians p.longitude) / 2) ^ 2)) :=
    Real.arcsin_nonneg.mpr (Real.sqrt_nonneg _)
  nlinarith

theorem calculate_distance_self (p : GeoPoint) :
    calculate_distance p p = 0 := by
  unfold calculate_distance
  simp

end GeometryLemmas

/-! ### Assignment-solver lemmas -/

section AssignLemmas

variable {beta : Type} [LinearOrderedField beta]

theorem picks_length : ∀ (k : Nat) (pool : List Nat) (cols : List Nat),
    cols ∈ picks pool k → cols.length = k := by
  intro k
  induction k with
  | zero =>
    intro pool cols h
    simp only [picks, List.mem_singleton] at h
    simp [h]
  | succ k ih =>
    intro pool cols h
    simp only [picks, List.mem_flatMap, List.mem_map] at h
    rcases h with ⟨c, hc, cols0, hcols0, hmap⟩
    rw [← hmap]
    simp [ih _ _ hcols0]

theorem picks_exists : ∀ (k : Nat) (pool : List Nat), k ≤ pool.length →
    ∃ cols, cols ∈ picks pool k := by
  intro k
  induction k with
  | zero =>
    intro pool _
    exact ⟨[], by simp [picks]⟩
  | succ k ih =>
    intro pool hk
    match pool, hk with
    | c :: rest, hk =>
      have hlen : k ≤ ((c :: rest).erase c).length := by
        rw [List.length_erase_of_mem (by simp)]
        simpa using hk
      rcases ih ((c :: rest).erase c) hlen with ⟨cols, hcols⟩
      refine ⟨c :: cols, ?_⟩
      simp only [picks, List.mem_flatMap, List.mem_map]
      exact ⟨c, by simp, cols, hcols, rfl⟩

theorem picks_complete : ∀ (cols pool : List Nat), cols.Nodup →
    (∀ x ∈ cols, x ∈ pool) → cols ∈ picks pool cols.length := by
  intro cols
  induction cols with
  | nil =>
    intro pool _ _
    simp [picks]
  | cons c rest ih =>
    intro pool hnd hsub
    have hc : c ∈ pool := hsub c (by simp)
    have hcrest : c ∉ rest := (List.nodup_cons.mp hnd).1
    have hsub2 : ∀ x ∈ rest, x ∈ pool.erase c := by
      intro x hx
      have hne : x ≠ c := fun hv => hcrest (hv ▸ hx)
      exact (List.mem_erase_of_ne hne).mpr (hsub x (by simp [hx]))
    have hrec := ih (pool.erase c) (List.nodup_cons.mp hnd).2 hsub2
    simp only [List.length_cons, picks, List.mem_flatMap, List.mem_map]
    exact ⟨c, hc, rest, hrec, rfl⟩

/-- Entry-wise description of the transpose (for matrices with uniform row
length). -/
theorem transposeM_entry {M : List (List beta)} {m : Nat}
    (hm : ∀ row ∈ M, row.length = m) (k r : Nat) :
    ((transposeM M m).getD k []).getD r 0 = (M.getD r []).getD k 0 := by
  by_cases hk : k < m
  · have h1 : (transposeM M m).getD k [] = M.map (fun row => row.getD k 0) := by
      rw [transposeM]
      rw [List.getD_eq_getElem ((List.range m).map fun j => M.map fun row => row.getD j 0)
        [] (by simpa using hk)]
      simp
    rw [h1]
    by_cases hr : r < M.length
    · rw [List.getD_eq_getElem (M.map fun row => row.getD k 0) 0 (by simpa using hr)]
      rw [List.getD_eq_getElem M [] hr]
      simp
    · rw [List.getD_eq_default (M.map fun row => row.getD k 0) 0
        (by simpa using Nat.le_of_not_lt hr)]
      rw [List.getD_eq_default M [] (Nat.le_of_not_lt hr)]
      simp
  · have h1 : (transposeM M m).getD k [] = [] := by
      apply List.getD_eq_default
      simp only [transposeM, List.length_map, List.length_range]
      exact Nat.le_of_not_lt hk
    rw [h1]
    by_cases hr : r < M.length
    · have h2 : (M.getD r []).length = m := hm _ (by
        rw [List.getD_eq_getElem M [] hr]
        exact List.getElem_mem hr)
      rw [List.getD_eq_default (M.getD r []) 0 (by omega)]
      simp
    · rw [List.getD_eq_default M [] (Nat.le_of_not_lt hr)]
      simp

/-- Cost of a matching read through the transpose. -/
theorem pairsCost_transpose {M : List (List beta)} {m : Nat}
    (hm : ∀ row ∈ M, row.length = m) :
    ∀ (ks rows : List Nat),
      pairsCost (transposeM M m) (ks.zip rows) = pairsCost M (rows.zip ks) := by
  intro ks
  induction ks with
  | nil => intro rows; simp [pairsCost]
  | cons k ks ih =>
    intro rows
    cases rows with
    | nil => simp [pairsCost]
    | cons r rows =>
      simp only [List.zip_cons_cons, pairsCost, List.map_cons, List.sum_cons]
      have := ih rows
      simp only [pairsCost] at this
      rw [this, transposeM_entry hm]

theorem hungarian_optimal_le {M : List (List beta)}
    (hnm : M.length ≤ (M.headD []).length) (cols : List Nat)
    (hlen : cols.length = M.length) (hnd : cols.Nodup)
    (hbound : ∀ x ∈ cols, x < (M.headD []).length) :
    pairsCost M (hungarian_assignment M) ≤
      pairsCost M ((List.range M.length).zip cols) := by
  have hmem : cols ∈ picks (List.range (M.headD []).length) M.length := by
    rw [← hlen]
    exact picks_complete cols _ hnd (fun x hx => List.mem_range.mpr (hbound x hx))
  rcases hp : picks (List.range (M.headD []).length) M.length with _ | ⟨c, cs⟩
  · rw [hp] at hmem
    simp at hmem
  · have hred : hungarian_assignment M = (List.range M.length).zip
        (argminKey (fun cols => pairsCost M ((List.range M.length).zip cols)) c cs) := by
      simp only [hungarian_assignment, if_pos hnm]
      rw [hp]
    rw [hred]
    rw [hp] at hmem
    exact argminKey_le (fun cols => pairsCost M ((List.range M.length).zip cols))
      c cs cols hmem

theorem hungarian_optimal_gt {M : List (List beta)}
    (hnm : (M.headD []).length < M.length)
    (hm : ∀ row ∈ M, row.length = (M.headD []).length) (rows : List Nat)
    (hlen : rows.length = (M.headD []).length) (hnd : rows.Nodup)
    (hbound : ∀ x ∈ rows, x < M.length) :
    pairsCost M (hungarian_assignment M) ≤
      pairsCost M (rows.zip (List.range (M.headD []).length)) := by
  have hmem : rows ∈ picks (List.range M.length) (M.headD []).length := by
    rw [← hlen]
    exact picks_complete rows _ hnd (fun x hx => List.mem_range.mpr (hbound x hx))
  rcases hp : picks (List.range M.length) (M.headD []).length with _ | ⟨c, cs⟩
  · rw [hp] at hmem
    simp at hmem
  · have hred : hungarian_assignment M =
        (argminKey (fun rows => pairsCost (transposeM M (M.headD []).length)
          ((List.range (M.headD []).length).zip rows)) c cs).zip
          (List.range (M.headD []).length) := by
      simp only [hungarian_assignment, if_neg (Nat.not_le_of_lt hnm)]
      rw [hp]
    rw [hred]
    rw [hp] at hmem
    have hopt := argminKey_le (fun rows => pairsCost (transposeM M (M.headD []).length)
      ((List.range (M.headD []).length).zip rows)) c cs rows hmem
    simp only at hopt
    rw [pairsCost_transpose hm, pairsCost_transpose hm] at hopt
    exact hopt

theorem hungarian_length {M : List (List beta)} :
    (hungarian_assignment M).length = min M.length (M.headD []).length := by
  by_cases hnm : M.length ≤ (M.headD []).length
  · rcases hp : picks (List.range (M.headD []).length) M.length with _ | ⟨c, cs⟩
    · exfalso
      rcases picks_exists M.length (List.range (M.headD []).length)
        (by simpa using hnm) with ⟨cols, hcols⟩
      rw [hp] at hcols
      simp at hcols
    · have hred : hungarian_assignment M = (List.range M.length).zip
          (argminKey (fun cols => pairsCost M ((List.range M.length).zip cols)) c cs) := by
        simp only [hungarian_assignment, if_pos hnm]
        rw [hp]
      rw [hred]
      have hmem := argminKey_mem
        (fun cols => pairsCost M ((List.range M.length).zip cols)) c cs
      have hblen : (argminKey (fun cols => pairsCost M ((List.range M.length).zip cols))
          c cs).length = M.length := by
        apply picks_length M.length (List.range (M.headD []).length)
        rw [hp]
        exact hmem
      have hz : ((List.range M.length).zip (argminKey
          (fun cols => pairsCost M ((List.range M.length).zip cols)) c cs)).length
          = M.length := by
        rw [List.length_zip, hblen, List.length_range, Nat.min_self]
      rw [hz, Nat.min_eq_left hnm]
  · have hlt : (M.headD []).length < M.length := Nat.lt_of_not_le hnm
    rcases hp : picks (List.range M.length) (M.headD []).length with _ | ⟨c, cs⟩
    · exfalso
      rcases picks_exists (M.headD []).length (List.range M.length)
        (by rw [List.length_range]; exact Nat.le_of_lt hlt) with ⟨rows, hrows⟩
      rw [hp] at hrows
      simp at hrows
    · have hred : hungarian_assignment M =
          (argminKey (fun rows => pairsCost (transposeM M (M.headD []).length)
            ((List.range (M.headD []).length).zip rows)) c cs).zip
            (List.range (M.headD []).length) := by
        simp only [hungarian_assignment, if_neg hnm]
        rw [hp]
      rw [hred]
      have hmem := argminKey_mem (fun rows => pairsCost (transposeM M (M.headD []).length)
        ((List.range (M.headD []).length).zip rows)) c cs
      have hblen : (argminKey (fun rows => pairsCost (transposeM M (M.headD []).length)
          ((List.range (M.headD []).length).zip rows)) c cs).length
          = (M.headD []).length := by
        apply picks_length (M.headD []).length (List.range M.length)
        rw [hp]
        exact hmem
      have hz : ((argminKey (fun rows => pairsCost (transposeM M (M.headD []).length)
          ((List.range (M.headD []).length).zip rows)) c cs).zip
          (List.range (M.headD []).length)).length = (M.headD []).length := by
        rw [List.length_zip, hblen, List.length_range, Nat.min_self]
      rw [hz, Nat.min_eq_right (Nat.le_of_lt hlt)]

end AssignLemmas

/-! ### Hybrid characterization and assignment response lemmas -/

section MoreLemmas

variable {P : Type} [DecidableEq P] {beta : Type} [LinearOrderedField beta]

theorem liftSome_mem_forward {alpha : Type} {l : List (Option alpha)} {xs : List alpha}
    (h : liftSome l = some xs) {q : alpha} (hq : some q ∈ l) : q ∈ xs := by
  induction l generalizing xs with
  | nil => simp at hq
  | cons o os ih =>
    match o, h with
    | some x, h =>
      simp only [liftSome] at h
      rcases hrec : liftSome os with _ | ys
      · rw [hrec] at h; simp at h
      · rw [hrec] at h
        have h2 : x :: ys = xs := by simpa using h
        rcases List.mem_cons.mp hq with h1 | h1
        · have hxq : q = x := Option.some.inj h1
          rw [← h2, hxq]
          simp
        · rw [← h2]
          exact List.mem_cons_of_mem _ (ih hrec h1)

/-- When the ant colony performs at least one iteration with at least one
ant, `hybrid_optimization` succeeds and returns the first highest-fitness
route among the successful strategies. -/
theorem hybrid_characterization (d : P → P → beta) (pts : List P)
    (c : Constraints) (t : Tape) (hit : c.iterations ≠ 0) (hac : c.ant_count ≠ 0) :
    ∃ routes best,
      liftSome ([(genetic_algorithm_optimization d pts c t).1,
        (ant_colony_optimization d pts c (genetic_algorithm_optimization d pts c t).2).1,
        greedy_optimization d pts].filterMap Except.toOption) = some routes
      ∧ (hybrid_optimization d pts c t).1 = .ok (some best)
      ∧ best ∈ routes
      ∧ (∀ s ∈ routes, calculate_fitness d s ≤ calculate_fitness d best)
      ∧ some pts ∈ [(genetic_algorithm_optimization d pts c t).1,
          (ant_colony_optimization d pts c
            (genetic_algorithm_optimization d pts c t).2).1,
          greedy_optimization d pts].filterMap Except.toOption := by
  have hra : (ant_colony_optimization d pts c
      (genetic_algorithm_optimization d pts c t).2).1 = .ok (some pts) := by
    rw [ant_colony_route]
    simp [hit, hac]
  have hpts_mem : some pts ∈ [(genetic_algorithm_optimization d pts c t).1,
      (ant_colony_optimization d pts c (genetic_algorithm_optimization d pts c t).2).1,
      greedy_optimization d pts].filterMap Except.toOption := by
    apply List.mem_filterMap.mpr
    refine ⟨(ant_colony_optimization d pts c
      (genetic_algorithm_optimization d pts c t).2).1, by simp, ?_⟩
    rw [hra]
    rfl
  have hallsome : ∀ o ∈ [(genetic_algorithm_optimization d pts c t).1,
      (ant_colony_optimization d pts c (genetic_algorithm_optimization d pts c t).2).1,
      greedy_optimization d pts].filterMap Except.toOption, ∃ x, o = some x := by
    intro o ho
    rcases List.mem_filterMap.mp ho with ⟨x, hx, hxo⟩
    have hxok : x = .ok o := by
      cases x with
      | error e => simp [Except.toOption] at hxo
      | ok v => simp [Except.toOption] at hxo; rw [hxo]
    have hx3 : x = (genetic_algorithm_optimization d pts c t).1
        ∨ x = (ant_colony_optimization d pts c
            (genetic_algorithm_optimization d pts c t).2).1
        ∨ x = greedy_optimization d pts := by simpa using hx
    rcases hx3 with h3 | h3 | h3
    · have hok : (genetic_algorithm_optimization d pts c t).1 = Except.ok o := by
        rw [← h3, hxok]
      rcases genetic_ok_perm hok with ⟨r, hr, -⟩
      exact ⟨r, hr⟩
    · have hok : (Except.ok (some pts) : Except Err (Option (List P))) = Except.ok o := by
        rw [← hra, ← h3, hxok]
      exact ⟨pts, (Except.ok.inj hok).symm⟩
    · have hok : greedy_optimization d pts = Except.ok o := by
        rw [← h3, hxok]
      rcases greedy_ok_perm hok with ⟨r, hr, -⟩
      exact ⟨r, hr⟩
  rcases liftSome_of_forall_some hallsome with ⟨routes, hroutes⟩
  have hfm_ne : [(genetic_algorithm_optimization d pts c t).1,
      (ant_colony_optimization d pts c (genetic_algorithm_optimization d pts c t).2).1,
      greedy_optimization d pts].filterMap Except.toOption ≠ [] :=
    List.ne_nil_of_mem hpts_mem
  have hlen := liftSome_length hroutes
  cases routes with
  | nil =>
    exfalso
    exact hfm_ne (List.length_eq_zero.mp hlen.symm)
  | cons q qs =>
    refine ⟨q :: qs, argmaxKey (calculate_fitness d) q qs, hroutes, ?_,
      argmaxKey_mem _ q qs, argmaxKey_le _ q qs, hpts_mem⟩
    simp only [hybrid_optimization]
    rcases hsucc : [(genetic_algorithm_optimization d pts c t).1,
        (ant_colony_optimization d pts c (genetic_algorithm_optimization d pts c t).2).1,
        greedy_optimization d pts].filterMap Except.toOption with _ | ⟨o1, os⟩
    · exact absurd hsucc hfm_ne
    · rw [hsucc] at hroutes
      simp only [hroutes]

theorem create_assignment_matrix_length {G : Type} [DecidableEq G]
    (d : G → G → beta) (orders : List (Order G)) (partners : List (Partner G)) :
    (create_assignment_matrix d orders partners).length = orders.length := by
  simp [create_assignment_matrix]

theorem create_assignment_matrix_head {G : Type} [DecidableEq G]
    (d : G → G → beta) {orders : List (Order G)} (partners : List (Partner G))
    (ho : orders ≠ []) :
    ((create_assignment_matrix d orders partners).headD []).length = partners.length := by
  cases orders with
  | nil => exact absurd rfl ho
  | cons o os => simp [create_assignment_matrix]

theorem create_assignment_matrix_rows {G : Type} [DecidableEq G]
    (d : G → G → beta) (orders : List (Order G)) (partners : List (Partner G)) :
    ∀ row ∈ create_assignment_matrix d orders partners,
      row.length = partners.length := by
  intro row hrow
  rcases List.mem_map.mp hrow with ⟨o, -, hmap⟩
  rw [← hmap]
  simp

theorem assign_ok {G : Type} [DecidableEq G] [Inhabited G] (d : G → G → beta)
    (orders : List (Order G)) (partners : List (Partner G))
    (ho : orders ≠ []) (hp : partners ≠ []) :
    ∃ res, assign_orders_to_partners d orders partners = .ok res
      ∧ res.assignments.length = min orders.length partners.length
      ∧ res.unassigned_orders = []
      ∧ res.unassigned_partners = []
      ∧ res.total_cost = pairsCost (create_assignment_matrix d orders partners)
          (hungarian_assignment (create_assignment_matrix d orders partners)) := by
  have hcond : ¬ (orders = [] ∨ partners = []) := by
    intro hor
    rcases hor with h | h
    · exact ho h
    · exact hp h
  simp only [assign_orders_to_partners, if_neg hcond]
  refine ⟨_, rfl, ?_, rfl, rfl, rfl⟩
  rw [List.length_map, hungarian_length,
    create_assignment_matrix_length d orders partners,
    create_assignment_matrix_head d partners ho]

end MoreLemmas

/-! ### Claim theorems -/

/-- C9 counterexample: a request whose delta adds 100 minutes against a
route of total cost 12 minutes with threshold 10% must trigger per the
claim, but the code reports `adjustment_needed = False` (the decision
function is a stub), so the claimed equivalence fails at this input. -/
theorem claim_C9_counterexample :
    ¬ (((dynamic_route_adjustment reqEx).adjustment_needed = true) ↔
        spec_adjustment_trigger dOne reqEx = true) := by
  with_unfolding_all decide

/-- C9 amended: `dynamic_route_adjustment` always answers
`adjustment_needed = False` with the constant no-adjustment response:
`analyze_real_time_conditions` and `evaluate_adjustment_need` are
placeholder stubs, so the recompute branch is dead code and no delta ever
triggers an adjustment. -/
theorem claim_C9_amended {P : Type} (req : AdjustmentRequest P) :
    dynamic_route_adjustment req =
      { adjustment_needed := false, adjusted_route := none,
        current_route_optimal := some true, confidence := 9/10 } := rfl

/-- C10: a route-optimization request naming an unsupported algorithm (or
naming none) does not fail on the name: `optimize_delivery_route` silently
falls back to the hybrid strategy and reports `algorithm_used = "hybrid"`,
the algorithm actually run. -/
theorem claim_C10_algorithm_fallback {P : Type} [DecidableEq P] {beta : Type}
    [LinearOrderedField beta] (d : P → P → beta) (pts : List P)
    (c : Constraints) (t : Tape)
    (halg : ∀ s, c.algorithm = some s → s ∉ supportedAlgorithms) :
    resolveAlgorithm c.algorithm = "hybrid"
    ∧ optimize_delivery_route d pts c t =
        (if pts = [] then (.error .invalidInput, t)
         else buildRouteResponse d "hybrid" pts c t)
    ∧ (∀ resp t1, optimize_delivery_route d pts c t = (.ok resp, t1) →
        resp.algorithm_used = "hybrid") := by
  have hres : resolveAlgorithm c.algorithm = "hybrid" := by
    cases halgo : c.algorithm with
    | none => simp [resolveAlgorithm, supportedAlgorithms]
    | some s =>
      have hs := halg s halgo
      simp [resolveAlgorithm, hs]
  refine ⟨hres, ?_, ?_⟩
  · simp only [optimize_delivery_route, hres]
  · intro resp t1 h
    simp only [optimize_delivery_route, hres] at h
    by_cases hpts : pts = []
    · rw [if_pos hpts] at h
      obtain ⟨heq, -⟩ := Prod.mk.injEq .. |>.mp h
      cases heq
    · rw [if_neg hpts] at h
      simp only [buildRouteResponse] at h
      rcases hrun : runAlgorithm d "hybrid" pts c t with ⟨res, t2⟩
      rw [hrun] at h
      cases res with
      | error e => simp at h
      | ok o =>
        cases o with
        | none => simp at h
        | some route =>
          simp only at h
          obtain ⟨heq, -⟩ := Prod.mk.injEq .. |>.mp h
          rw [← Except.ok.inj heq]

/-- C10 witness: concrete request naming the unsupported algorithm
"dijkstra". -/
theorem claim_C10_algorithm_fallback_witness :
    resolveAlgorithm consAlg.algorithm = "hybrid"
    ∧ optimize_delivery_route dEx ptsEx consAlg tapeA =
        (if ptsEx = [] then (.error .invalidInput, tapeA)
         else buildRouteResponse dEx "hybrid" ptsEx consAlg tapeA)
    ∧ (∀ resp t1, optimize_delivery_route dEx ptsEx consAlg tapeA = (.ok resp, t1) →
        resp.algorithm_used = "hybrid") :=
  claim_C10_algorithm_fallback dEx ptsEx consAlg tapeA (by
    intro s hs
    rw [← Option.some.inj hs]
    decide)

/-- C3 counterexample: with 3 orders and 2 partners the response has 2
assignments but `unassigned_orders` is the hardcoded empty list, not a
one-element list naming the unmatched order. -/
theorem claim_C3_counterexample :
    (Except.toOption (assign_orders_to_partners dAssign orders3Ex partnersEx)).map
        (fun r => (r.assignments.length, r.unassigned_orders, r.unassigned_partners))
      = some (2, [], [])
    ∧ ¬ ((Except.toOption (assign_orders_to_partners dAssign orders3Ex partnersEx)).map
        (fun r => r.unassigned_orders.length) = some 1) := by
  constructor
  · with_unfolding_all decide
  · with_unfolding_all decide

/-- C3 amended: with unequal counts the solver still returns
`min(orders, partners)` assignments, but unmatched elements are never
reported: `unassigned_orders` and `unassigned_partners` are hardcoded to
empty lists (the padding scheme of the spec does not exist in the code). -/
theorem claim_C3_amended {G : Type} [DecidableEq G] [Inhabited G] {beta : Type}
    [LinearOrderedField beta] (d : G → G → beta) (orders : List (Order G))
    (partners : List (Partner G)) (ho : orders ≠ []) (hp : partners ≠ []) :
    ∃ res, assign_orders_to_partners d orders partners = .ok res
      ∧ res.assignments.length = min orders.length partners.length
      ∧ res.unassigned_orders = [] ∧ res.unassigned_partners = [] := by
  obtain ⟨res, h1, h2, h3, h4, -⟩ := assign_ok d orders partners ho hp
  exact ⟨res, h1, h2, h3, h4⟩

/-- C3 amended witness: 3 orders against 2 partners. -/
theorem claim_C3_amended_witness :
    ∃ res, assign_orders_to_partners dAssign orders3Ex partnersEx = .ok res
      ∧ res.assignments.length = min orders3Ex.length partnersEx.length
      ∧ res.unassigned_orders = [] ∧ res.unassigned_partners = [] :=
  claim_C3_amended dAssign orders3Ex partnersEx (by decide) (by decide)


/-- C1: for every non-empty delivery-point list, every distance function and
every state of the global random source, each strategy (greedy, genetic,
ant colony, hybrid) that returns a route returns a permutation of the input
points. -/
theorem claim_C1_route_permutation {P : Type} [DecidableEq P] {beta : Type}
    [LinearOrderedField beta] (d : P → P → beta) (pts : List P) (c : Constraints)
    (t : Tape) (hne : pts ≠ []) :
    (∀ r, greedy_optimization d pts = .ok (some r) → List.Perm r pts)
    ∧ (∀ r, (genetic_algorithm_optimization d pts c t).1 = .ok (some r) →
        List.Perm r pts)
    ∧ (∀ r, (ant_colony_optimization d pts c t).1 = .ok (some r) → List.Perm r pts)
    ∧ (∀ r, (hybrid_optimization d pts c t).1 = .ok (some r) → List.Perm r pts) := by
  have hne2 := hne
  refine ⟨?_, ?_, ?_, ?_⟩
  · intro r h
    rcases greedy_ok_perm h with ⟨r2, hr2, hp⟩
    obtain rfl : r = r2 := Option.some.inj hr2
    exact hp
  · intro r h
    rcases genetic_ok_perm h with ⟨r2, hr2, hp⟩
    obtain rfl : r = r2 := Option.some.inj hr2
    exact hp
  · intro r h
    rw [ant_colony_route] at h
    have h2 := Except.ok.inj h
    by_cases hc : c.iterations = 0 ∨ c.ant_count = 0
    · rw [if_pos hc] at h2
      cases h2
    · rw [if_neg hc] at h2
      obtain rfl : pts = r := Option.some.inj h2
      exact List.Perm.refl pts
  · intro r h
    rcases hybrid_ok_perm h with ⟨r2, hr2, hp⟩
    obtain rfl : r = r2 := Option.some.inj hr2
    exact hp

set_option maxRecDepth 40000 in
/-- C1 witness: a concrete genetic run returning the route [0, 2, 1], a
permutation of the three input points. -/
theorem claim_C1_route_permutation_witness :
    ptsEx ≠ []
    ∧ (genetic_algorithm_optimization dEx ptsEx consEx tapeB).1 = .ok (some [0, 2, 1])
    ∧ List.Perm [0, 2, 1] ptsEx := by
  refine ⟨by decide, by with_unfolding_all decide, ?_⟩
  exact (claim_C1_route_permutation dEx ptsEx consEx tapeB (by decide)).2.1 [0, 2, 1]
    (by with_unfolding_all decide)

/-- C2: the assignment returned by `assign_orders_to_partners` has total
cost no greater than any other perfect matching of its cost matrix (rows to
distinct columns when orders ≤ partners, columns to distinct rows
otherwise), and on the cost matrix [[1,4],[3,2]] the solver returns
order0→partner0, order1→partner1 with total cost 3. -/
theorem claim_C2_assignment_optimal {G : Type} [DecidableEq G] [Inhabited G]
    {beta : Type} [LinearOrderedField beta] (d : G → G → beta)
    (orders : List (Order G)) (partners : List (Partner G))
    (ho : orders ≠ []) (hp : partners ≠ []) :
    (∃ res, assign_orders_to_partners d orders partners = .ok res
      ∧ (orders.length ≤ partners.length →
          ∀ cols : List Nat, cols.length = orders.length → cols.Nodup →
            (∀ x ∈ cols, x < partners.length) →
            res.total_cost ≤ pairsCost (create_assignment_matrix d orders partners)
              ((List.range orders.length).zip cols))
      ∧ (partners.length < orders.length →
          ∀ rows : List Nat, rows.length = partners.length → rows.Nodup →
            (∀ x ∈ rows, x < orders.length) →
            res.total_cost ≤ pairsCost (create_assignment_matrix d orders partners)
              (rows.zip (List.range partners.length))))
    ∧ hungarian_assignment [[(1 : ℚ), 4], [3, 2]] = [(0, 0), (1, 1)]
    ∧ pairsCost [[(1 : ℚ), 4], [3, 2]] [(0, 0), (1, 1)] = 3 := by
  refine ⟨?_, by with_unfolding_all decide, by with_unfolding_all decide⟩
  obtain ⟨res, hres, hlen, hu1, hu2, hcost⟩ := assign_ok d orders partners ho hp
  have hM1 : (create_assignment_matrix d orders partners).length = orders.length :=
    create_assignment_matrix_length d orders partners
  have hM2 : ((create_assignment_matrix d orders partners).headD []).length
      = partners.length := create_assignment_matrix_head d partners ho
  refine ⟨res, hres, ?_, ?_⟩
  · intro hnm cols hclen hnd hbound
    rw [hcost]
    have hopt := hungarian_optimal_le
      (M := create_assignment_matrix d orders partners)
      (by rw [hM1, hM2]; exact hnm) cols (by rw [hM1]; exact hclen) hnd
      (by rw [hM2]; exact hbound)
    rw [hM1] at hopt
    exact hopt
  · intro hnm rows hrlen hnd hbound
    rw [hcost]
    have hm : ∀ row ∈ create_assignment_matrix d orders partners,
        row.length = ((create_assignment_matrix d orders partners).headD []).length := by
      intro row hr
      rw [hM2]
      exact create_assignment_matrix_rows d orders partners row hr
    have hopt := hungarian_optimal_gt
      (M := create_assignment_matrix d orders partners)
      (by rw [hM1, hM2]; exact hnm) hm rows (by rw [hM2]; exact hrlen) hnd
      (by rw [hM1]; exact hbound)
    rw [hM2] at hopt
    exact hopt

/-- C2 witness: two orders and two partners realising the cost matrix
[[1,4],[3,2]]. -/
theorem claim_C2_assignment_optimal_witness :
    (∃ res, assign_orders_to_partners dAssign ordersEx partnersEx = .ok res
      ∧ (ordersEx.length ≤ partnersEx.length →
          ∀ cols : List Nat, cols.length = ordersEx.length → cols.Nodup →
            (∀ x ∈ cols, x < partnersEx.length) →
            res.total_cost ≤ pairsCost (create_assignment_matrix dAssign ordersEx partnersEx)
              ((List.range ordersEx.length).zip cols))
      ∧ (partnersEx.length < ordersEx.length →
          ∀ rows : List Nat, rows.length = partnersEx.length → rows.Nodup →
            (∀ x ∈ rows, x < ordersEx.length) →
            res.total_cost ≤ pairsCost (create_assignment_matrix dAssign ordersEx partnersEx)
              (rows.zip (List.range partnersEx.length))))
    ∧ hungarian_assignment [[(1 : ℚ), 4], [3, 2]] = [(0, 0), (1, 1)]
    ∧ pairsCost [[(1 : ℚ), 4], [3, 2]] [(0, 0), (1, 1)] = 3 :=
  claim_C2_assignment_optimal dAssign ordersEx partnersEx (by decide) (by decide)

set_option maxRecDepth 40000 in
/-- C4 counterexample: with `iterations = 0` the ant colony "succeeds" with
a null route; hybrid's best-of comparison then raises a TypeError even
though greedy succeeded, refuting "hybrid raises a fatal error exactly when
all sub-strategies fail" and "if at least one sub-strategy succeeds, hybrid
returns the minimal-distance success". -/
theorem claim_C4_counterexample :
    (hybrid_optimization dEx ptsEx consIter0 tapeB).1 = .error Err.typeError
    ∧ greedy_optimization dEx ptsEx = .ok (some [0, 1, 2]) := by
  constructor
  · with_unfolding_all decide
  · with_unfolding_all decide

/-- C4 amended: provided the ant colony runs at least one iteration with at
least one ant (so no sub-strategy can return a null route), hybrid catches
sub-strategy failures, always succeeds, returns a route whose total
distance is at most that of every successfully-run sub-strategy, and its
all-failed error is raised exactly when all three sub-strategies fail
(which the placeholder ant colony makes impossible). -/
theorem claim_C4_amended {P : Type} [DecidableEq P] {beta : Type}
    [LinearOrderedField beta] (d : P → P → beta) (pts : List P) (c : Constraints)
    (t : Tape) (hd : ∀ a b, 0 ≤ d a b) (hit : c.iterations ≠ 0)
    (hac : c.ant_count ≠ 0) :
    (∃ r, (hybrid_optimization d pts c t).1 = .ok (some r)
      ∧ (∀ s, (genetic_algorithm_optimization d pts c t).1 = .ok (some s) →
          calculate_total_distance d r ≤ calculate_total_distance d s)
      ∧ calculate_total_distance d r ≤ calculate_total_distance d pts
      ∧ (∀ s, greedy_optimization d pts = .ok (some s) →
          calculate_total_distance d r ≤ calculate_total_distance d s))
    ∧ ¬ (∃ e, (hybrid_optimization d pts c t).1 = .error e)
    ∧ (((hybrid_optimization d pts c t).1 = .error .allFailed) ↔
        ((∃ e, (genetic_algorithm_optimization d pts c t).1 = .error e)
          ∧ (∃ e, (ant_colony_optimization d pts c
              (genetic_algorithm_optimization d pts c t).2).1 = .error e)
          ∧ (∃ e, greedy_optimization d pts = .error e))) := by
  obtain ⟨routes, best, hlift, hok, hbestmem, hbestle, hptsmem⟩ :=
    hybrid_characterization d pts c t hit hac
  have hra : (ant_colony_optimization d pts c
      (genetic_algorithm_optimization d pts c t).2).1 = .ok (some pts) := by
    rw [ant_colony_route]
    simp [hit, hac]
  have hmemroute : ∀ (x : Except Err (Option (List P))) (s : List P),
      x ∈ [(genetic_algorithm_optimization d pts c t).1,
        (ant_colony_optimization d pts c (genetic_algorithm_optimization d pts c t).2).1,
        greedy_optimization d pts] → x = .ok (some s) →
      calculate_total_distance d best ≤ calculate_total_distance d s := by
    intro x s hx hxv
    have hmem : some s ∈ [(genetic_algorithm_optimization d pts c t).1,
        (ant_colony_optimization d pts c (genetic_algorithm_optimization d pts c t).2).1,
        greedy_optimization d pts].filterMap Except.toOption :=
      List.mem_filterMap.mpr ⟨x, hx, by rw [hxv]; rfl⟩
    have hsroutes : s ∈ routes := liftSome_mem_forward hlift hmem
    exact fitness_le_distance_le hd (hbestle s hsroutes)
  refine ⟨⟨best, hok, ?_, ?_, ?_⟩, ?_, ?_⟩
  · intro s hs
    exact hmemroute _ s (by simp) hs
  · exact hmemroute _ pts (by simp) hra
  · intro s hs
    exact hmemroute _ s (by simp) hs
  · rintro ⟨e, he⟩
    rw [hok] at he
    cases he
  · constructor
    · intro hfail
      rw [hok] at hfail
      cases hfail
    · rintro ⟨-, ⟨e, hante⟩, -⟩
      rw [hra] at hante
      cases hante

set_option maxRecDepth 40000 in
/-- C4 amended witness: population 4 with zero generations, one ant, one
iteration. -/
theorem claim_C4_amended_witness :
    (∃ r, (hybrid_optimization dEx ptsEx consW tapeA).1 = .ok (some r)
      ∧ (∀ s, (genetic_algorithm_optimization dEx ptsEx consW tapeA).1 = .ok (some s) →
          calculate_total_distance dEx r ≤ calculate_total_distance dEx s)
      ∧ calculate_total_distance dEx r ≤ calculate_total_distance dEx ptsEx
      ∧ (∀ s, greedy_optimization dEx ptsEx = .ok (some s) →
          calculate_total_distance dEx r ≤ calculate_total_distance dEx s))
    ∧ ¬ (∃ e, (hybrid_optimization dEx ptsEx consW tapeA).1 = .error e)
    ∧ (((hybrid_optimization dEx ptsEx consW tapeA).1 = .error .allFailed) ↔
        ((∃ e, (genetic_algorithm_optimization dEx ptsEx consW tapeA).1 = .error e)
          ∧ (∃ e, (ant_colony_optimization dEx ptsEx consW
              (genetic_algorithm_optimization dEx ptsEx consW tapeA).2).1 = .error e)
          ∧ (∃ e, greedy_optimization dEx ptsEx = .error e))) :=
  claim_C4_amended dEx ptsEx consW tapeA (by with_unfolding_all decide)
    (by decide) (by decide)

set_option maxRecDepth 40000 in
/-- C5 counterexample: on a concrete run (population 4, one generation) the
initial population contains the route [0,1,2], whose fitness is strictly
greater than that of the returned route [0,2,1]; the code returns the best
of the final generation only, not the best individual ever observed. -/
theorem claim_C5_counterexample :
    [0, 1, 2] ∈ (init_population ptsEx consEx.population_size tapeB).1
    ∧ (genetic_algorithm_optimization dEx ptsEx consEx tapeB).1 = .ok (some [0, 2, 1])
    ∧ calculate_fitness dEx [0, 2, 1] < calculate_fitness dEx [0, 1, 2] := by
  refine ⟨by with_unfolding_all decide, by with_unfolding_all decide, ?_⟩
  with_unfolding_all decide

/-- C5 amended: the genetic algorithm runs exactly `generations` evolution
steps (the `evolveN` loop) and then returns the first highest-fitness
member of the final generation's population; individuals from earlier
generations are not tracked. -/
theorem claim_C5_amended {P : Type} [DecidableEq P] {beta : Type}
    [LinearOrderedField beta] (d : P → P → beta) (pts : List P) (c : Constraints)
    (t : Tape) {popF : List (List P)}
    (hev : (evolveN d c.crossover_rate c.mutation_rate c.generations
      (init_population pts c.population_size t).1
      (init_population pts c.population_size t).2).1 = .ok popF)
    (hne : popF ≠ []) :
    ∃ best, (genetic_algorithm_optimization d pts c t).1 = .ok (some best)
      ∧ best ∈ popF
      ∧ ∀ r ∈ popF, calculate_fitness d r ≤ calculate_fitness d best := by
  simp only [genetic_algorithm_optimization]
  rcases h2 : evolveN d c.crossover_rate c.mutation_rate c.generations
      (init_population pts c.population_size t).1
      (init_population pts c.population_size t).2 with ⟨res, t2⟩
  rw [h2] at hev
  simp only at hev
  subst hev
  cases popF with
  | nil => exact absurd rfl hne
  | cons x xs =>
    exact ⟨argmaxKey (calculate_fitness d) x xs, rfl, argmaxKey_mem _ x xs,
      argmaxKey_le _ x xs⟩

set_option maxRecDepth 40000 in
/-- C5 amended witness: the concrete run of the counterexample; the final
population is four copies of [0,2,1] and the returned route is its best
member. -/
theorem claim_C5_amended_witness :
    ∃ best, (genetic_algorithm_optimization dEx ptsEx consEx tapeB).1 = .ok (some best)
      ∧ best ∈ [[0, 2, 1], [0, 2, 1], [0, 2, 1], [0, 2, 1]]
      ∧ ∀ r ∈ [[0, 2, 1], [0, 2, 1], [0, 2, 1], [0, 2, 1]],
          calculate_fitness dEx r ≤ calculate_fitness dEx best :=
  claim_C5_amended dEx ptsEx consEx tapeB (by with_unfolding_all decide) (by decide)

set_option maxRecDepth 40000 in
/-- C6 counterexample: two different states of the process-global random
source, with identical inputs and parameters, make the genetic strategy
return different routes; the interface offers no seed parameter that could
fix the state, so repeated runs are not reproducible. -/
theorem claim_C6_counterexample :
    (genetic_algorithm_optimization dEx ptsEx consEx tapeA).1 = .ok (some [0, 1, 2])
    ∧ (genetic_algorithm_optimization dEx ptsEx consEx tapeB).1 = .ok (some [0, 2, 1])
    ∧ (genetic_algorithm_optimization dEx ptsEx consEx tapeA).1
        ≠ (genetic_algorithm_optimization dEx ptsEx consEx tapeB).1 := by
  refine ⟨by with_unfolding_all decide, by with_unfolding_all decide, ?_⟩
  with_unfolding_all decide

set_option maxRecDepth 40000 in
/-- C6 amended: the strategies draw from the process-global random state
(modelled as the tape argument), not from an injectable seed.  The
placeholder ant colony consumes no randomness at all and is deterministic;
the genetic strategy's output varies with the ambient random state even
when every input and parameter is fixed. -/
theorem claim_C6_amended :
    (∀ {P : Type} [DecidableEq P] {beta : Type} [LinearOrderedField beta]
        (d : P → P → beta) (pts : List P) (c : Constraints) (t1 t2 : Tape),
        (ant_colony_optimization d pts c t1).1 = (ant_colony_optimization d pts c t2).1)
    ∧ (genetic_algorithm_optimization dEx ptsEx consEx tapeA).1
        ≠ (genetic_algorithm_optimization dEx ptsEx consEx tapeB).1 := by
  constructor
  · intro P _ beta _ d pts c t1 t2
    rfl
  · with_unfolding_all decide

/-- C7 counterexample: on a single-point input the genetic strategy raises
(random.sample of 2 positions from a 1-element range) as soon as a
crossover coin fires, so not every strategy succeeds on single-point
inputs. -/
theorem claim_C7_counterexample :
    (genetic_algorithm_optimization dEx [0] consEx tapeC).1 = .error Err.sampleError := by
  with_unfolding_all decide

/-- C7 amended: on a single-point input greedy, ant colony and hybrid
return the trivial one-element route with total distance 0 (for every
random state); the genetic strategy either raises or returns the trivial
route, depending on whether any crossover or mutation draw fires. -/
theorem claim_C7_amended {P : Type} [DecidableEq P] {beta : Type}
    [LinearOrderedField beta] (d : P → P → beta) (p : P) (t : Tape) :
    greedy_optimization d [p] = .ok (some [p])
    ∧ (ant_colony_optimization d [p] defaultConstraints t).1 = .ok (some [p])
    ∧ (hybrid_optimization d [p] defaultConstraints t).1 = .ok (some [p])
    ∧ calculate_total_distance d [p] = (0 : beta)
    ∧ ∀ c : Constraints,
        (genetic_algorithm_optimization d [p] c t).1 = .ok (some [p])
        ∨ ∃ e, (genetic_algorithm_optimization d [p] c t).1 = .error e := by
  refine ⟨rfl, ?_, ?_, rfl, ?_⟩
  · rw [ant_colony_route]
    simp [defaultConstraints]
  · obtain ⟨routes, best, hlift, hok, hbestmem, hbestle, -⟩ :=
      hybrid_characterization d [p] defaultConstraints t (by decide) (by decide)
    rcases hybrid_ok_perm hok with ⟨r, hr, hperm⟩
    obtain rfl : best = r := Option.some.inj hr
    have hbp : best = [p] := List.perm_singleton.mp hperm
    rw [hok, hbp]
  · intro c
    rcases hres : (genetic_algorithm_optimization d [p] c t).1 with e | o
    · exact Or.inr ⟨e, rfl⟩
    · left
      rcases genetic_ok_perm hres with ⟨r, hr, hperm⟩
      have hrp : r = [p] := List.perm_singleton.mp hperm
      rw [hr, hrp]

end RouteOpt
